import Mathlib

/-!
# jxo/parser: the parse tree (`node.go`) and the Go parser generator (`gogenerator.go`)

`gogenerator.go` emits Go source text.  Each emitting method is embedded here as the
meaning of the text it emits: a transformer of the run-time state of the generated
parser (the struct `p` together with the local variable `accept`).  A fragment that
does not finish (an endless loop, an index out of range, text that is not Go) yields
`none`.  Loops and rule calls take fuel.
-/

namespace Parser

/-! ## Data model -/

/-- Region of the package `lime/text` used by `node.go` for `Node.Range`: a pair of
offsets `A`, `B`. -/
structure Region where
  A : Int
  B : Int
  deriving DecidableEq, Repr

/-- `Region.Begin()` of `lime/text`: the smaller of `A` and `B`. -/
def Region.Begin (r : Region) : Int := min r.A r.B

/-- `Region.End()` of `lime/text`: the larger of `A` and `B`. -/
def Region.End (r : Region) : Int := max r.A r.B

/-- `Range` as the generated parser uses it for `p.IgnoreRange`: fields `Start`, `End`.
`Range{}` is the zero value. -/
structure Range where
  Start : Int
  End : Int
  deriving DecidableEq, Repr

/-- `Node` of `node.go`: `Range`, `Name`, `Children` (the `DataSource` pointer `P` only
serves `Data()` and is left out). -/
structure Node where
  Range : Region
  Name : String
  Children : List Node
  deriving Repr

mutual
/-- Equality of nodes is decidable (field by field, children in order). -/
def Node.decEq : (a b : Node) → Decidable (a = b)
  | ⟨r1, n1, c1⟩, ⟨r2, n2, c2⟩ =>
    if h1 : r1 = r2 then
      if h2 : n1 = n2 then
        match Node.decEqList c1 c2 with
        | isTrue h3 => isTrue (by rw [h1, h2, h3])
        | isFalse h3 => isFalse (by intro h; cases h; exact h3 rfl)
      else isFalse (by intro h; cases h; exact h2 rfl)
    else isFalse (by intro h; cases h; exact h1 rfl)
/-- Equality of lists of nodes is decidable. -/
def Node.decEqList : (a b : List Node) → Decidable (a = b)
  | [], [] => isTrue rfl
  | a :: as, b :: bs =>
    match Node.decEq a b with
    | isTrue h1 =>
      match Node.decEqList as bs with
      | isTrue h2 => isTrue (by rw [h1, h2])
      | isFalse h2 => isFalse (by intro h; cases h; exact h2 rfl)
    | isFalse h1 => isFalse (by intro h; cases h; exact h1 rfl)
  | [], _ :: _ => isFalse (by intro h; cases h)
  | _ :: _, [] => isFalse (by intro h; cases h)
end

instance : DecidableEq Node := Node.decEq

/-- State of a generated parser while a fragment runs: the local `accept` and the
fields of the generated struct (`ParserData.Pos`, `ParserData.Data`, `IgnoreRange`,
`Root`, `LastError`).  Bytes are naturals. -/
structure State where
  accept : Bool
  Pos : Int
  Data : List Nat
  IgnoreRange : Range
  Root : Node
  LastError : Int
  deriving DecidableEq

/-- A fragment of emitted code: `none` when it does not finish. -/
abbrev Fragment := State → Option State

/-- Go indexing `Data[i]`: `none` is the run-time panic for an index out of range. -/
def index (d : List Nat) (i : Int) : Option Nat :=
  if 0 ≤ i then d.get? i.toNat else none

/-- `len(p.ParserData.Data)`. -/
def len (s : State) : Int := (s.Data.length : Int)

/-! ## Character literals spliced into the emitted text -/

/-- Value of the Go character literal with the text `c2` between the quotes: a single
byte other than `\` and `'` stands for itself, a backslash and a byte is one of Go's single-character escapes;
anything else is not a character literal. -/
def litValue : List Nat → Option Nat
  | [c] => if c = 92 ∨ c = 39 then none else some c
  | [92, c] =>
    if c = 97 then some 7            -- \a
    else if c = 98 then some 8       -- \b
    else if c = 102 then some 12     -- \f
    else if c = 110 then some 10     -- \n
    else if c = 114 then some 13     -- \r
    else if c = 116 then some 9      -- \t
    else if c = 118 then some 11     -- \v
    else if c = 92 then some 92      -- \\
    else if c = 39 then some 39      -- \'
    else none
  | _ => none

/-- Value of a whole character literal text, quotes included, as `CheckNext` splices it
when `a[0] == '\''`. -/
def quotedValue (a : List Nat) : Option Nat :=
  match a with
  | 39 :: rest =>
    match rest.reverse with
    | 39 :: inner => litValue inner.reverse
    | _ => none
  | _ => none

/-! ## Primitive matchers -/

/-- `CheckInRange(a, b)`:
  ```
  if p.ParserData.Pos >= len(p.ParserData.Data) { accept = false } else {
    c := p.ParserData.Data[p.ParserData.Pos]
    if c >= 'a' && c <= 'b' { p.ParserData.Pos++; accept = true } else { accept = false } }
  ``` -/
def CheckInRange (a b : List Nat) : Fragment := fun s =>
  match litValue a, litValue b with
  | some lo, some hi =>
    if s.Pos ≥ len s then some { s with accept := false }
    else
      match index s.Data s.Pos with
      | none => none
      | some c =>
        if c ≥ lo ∧ c ≤ hi then some { s with Pos := s.Pos + 1, accept := true }
        else some { s with accept := false }
  | _, _ => none

/-- `strings.Replace(a, old, new, -1)` for a two-byte `old` `x y` and a one-byte `new`
`r`, as `CheckInSet` uses it. -/
def replace2 (x y r : Nat) : List Nat → List Nat
  | [] => []
  | [a] => [a]
  | a :: b :: rest =>
    if a = x ∧ b = y then r :: replace2 x y r rest else a :: replace2 x y r (b :: rest)

/-- The loop of `CheckInSet` that builds `tests`: one `c == 'c2'` per byte of `a`, a
backslash taking the next byte with it, a lone `'` written `\'`.  The result is the
list of the literals' values; `none` when `a[i]` runs past the end or a literal is not
Go. -/
def setTests : List Nat → Option (List Nat)
  | [] => some []
  | c :: t =>
    if c = 92 then
      match t with
      | [] => none
      | d :: rest =>
        match litValue [92, d], setTests rest with
        | some v, some vs => some (v :: vs)
        | _, _ => none
    else
      match (if c = 39 then litValue [92, 39] else litValue [c]), setTests t with
      | some v, some vs => some (v :: vs)
      | _, _ => none

/-- `CheckInSet(a)`:
  ```
  { accept = false
    if p.ParserData.Pos < len(p.ParserData.Data) {
      c := p.ParserData.Data[p.ParserData.Pos]
      if c == 'x' || c == 'y' ... { p.ParserData.Pos++; accept = true } } }
  ```
An empty `tests` leaves `if  {`, which is not Go. -/
def CheckInSet (a : List Nat) : Fragment := fun s =>
  match setTests (replace2 92 93 93 (replace2 92 91 91 a)) with
  | none => none
  | some [] => none
  | some vs =>
    if s.Pos < len s then
      match index s.Data s.Pos with
      | none => none
      | some c =>
        if vs.any (fun v => c = v) then some { s with Pos := s.Pos + 1, accept := true }
        else some { s with accept := false }
    else some { s with accept := false }

/-- `CheckAnyChar()`:
  ```
  if p.ParserData.Pos >= len(p.ParserData.Data) { accept = false } else {
    p.ParserData.Pos++; accept = true }
  ``` -/
def CheckAnyChar : Fragment := fun s =>
  if s.Pos ≥ len s then some { s with accept := false }
  else some { s with Pos := s.Pos + 1, accept := true }

/-- The loop of `CheckNext` that builds `tests` for a string literal (quotes already
stripped): one `p.ParserData.Data[s+pos] != 'c2'` per character, a backslash taking the
next byte with it, `\"` written `"`, a lone `'` written `\'`.  The result pairs each
`pos` with the literal's value; `none` when `a[i]` runs past the end or a literal is
not Go. -/
def nextTests : List Nat → Nat → Option (List (Nat × Nat))
  | [], _ => some []
  | c :: t, pos =>
    if c = 92 then
      match t with
      | [] => none
      | d :: rest =>
        match (if d = 34 then litValue [34] else litValue [92, d]),
            nextTests rest (pos + 1) with
        | some v, some ts => some ((pos, v) :: ts)
        | _, _ => none
    else
      match (if c = 39 then litValue [92, 39] else litValue [c]), nextTests t (pos + 1) with
      | some v, some ts => some ((pos, v) :: ts)
      | _, _ => none

/-- The emitted condition `Data[s+0] != 'x' || Data[s+1] != 'y' ...`, evaluated left to
right with Go's short-circuit `||`. -/
def mismatch (d : List Nat) (s : Int) : List (Nat × Nat) → Option Bool
  | [] => some false
  | (k, v) :: ts =>
    match index d (s + (k : Int)) with
    | none => none
    | some c => if c ≠ v then some true else mismatch d s ts

/-- `CheckNext(a)`.  When `a[0] == '\''`:
  ```
  if p.ParserData.Pos >= len(p.ParserData.Data) || p.ParserData.Data[p.ParserData.Pos] != a {
    accept = false } else { p.ParserData.Pos++; accept = true }
  ```
otherwise, with `a = a[1 : len(a)-1]` and `pos` the number of tests:
  ```
  { accept = true
    s := p.ParserData.Pos
    e := s + pos
    if e > len(p.ParserData.Data) { accept = false } else { if tests { accept = false } }
    if accept { p.ParserData.Pos += pos } }
  ```
An empty `a` makes the generator panic at `a[0]`; an empty `tests` leaves `if  {`. -/
def CheckNext (a : List Nat) : Fragment := fun s =>
  match a with
  | [] => none
  | 39 :: _ =>
    match quotedValue a with
    | none => none
    | some v =>
      if s.Pos ≥ len s then some { s with accept := false }
      else
        match index s.Data s.Pos with
        | none => none
        | some c =>
          if c ≠ v then some { s with accept := false }
          else some { s with Pos := s.Pos + 1, accept := true }
  | _ :: t =>
    match nextTests t.dropLast 0 with
    | none => none
    | some [] => none
    | some ts =>
      let pos : Int := (ts.length : Int)
      let e := s.Pos + pos
      if e > len s then some { s with accept := false }
      else
        match mismatch s.Data s.Pos ts with
        | none => none
        | some true => some { s with accept := false }
        | some false => some { s with accept := true, Pos := s.Pos + pos }

/-! ## Lookahead, repetition, option -/

/-- `AssertNot(a)`:
  ```
  s := p.ParserData.Pos
  <a>
  p.ParserData.Pos = s
  accept = !accept
  ``` -/
def AssertNot (a : Fragment) : Fragment := fun s =>
  match a s with
  | none => none
  | some s1 => some { s1 with Pos := s.Pos, accept := !s1.accept }

/-- `AssertAnd(a)`:
  ```
  s := p.ParserData.Pos
  <a>
  p.ParserData.Pos = s
  ``` -/
def AssertAnd (a : Fragment) : Fragment := fun s =>
  match a s with
  | none => none
  | some s1 => some { s1 with Pos := s.Pos }

/-- The emitted loop `for accept { <a> }`; the fuel bounds the number of iterations. -/
def forAccept (a : Fragment) : Nat → Fragment
  | fuel, s =>
    if s.accept then
      match fuel with
      | 0 => none
      | n + 1 =>
        match a s with
        | none => none
        | some s1 => forAccept a n s1
    else some s

/-- `ZeroOrMore(a)`:
  ```
  { accept = true
    for accept { <a> }
    accept = true }
  ``` -/
def ZeroOrMore (fuel : Nat) (a : Fragment) : Fragment := fun s =>
  match forAccept a fuel { s with accept := true } with
  | none => none
  | some s1 => some { s1 with accept := true }

/-- `OneOrMore(a)`:
  ```
  { save := p.ParserData.Pos
    <a>
    if !accept { p.ParserData.Pos = save } else {
      for accept { <a> }
      accept = true } }
  ``` -/
def OneOrMore (fuel : Nat) (a : Fragment) : Fragment := fun s =>
  let save := s.Pos
  match a s with
  | none => none
  | some s1 =>
    if !s1.accept then some { s1 with Pos := save }
    else
      match forAccept a fuel s1 with
      | none => none
      | some s2 => some { s2 with accept := true }

/-- `Maybe(a)`:
  ```
  <a>
  accept = true
  ``` -/
def Maybe (a : Fragment) : Fragment := fun s =>
  match a s with
  | none => none
  | some s1 => some { s1 with accept := true }

/-! ## Groups -/

/-- `UpdateError`:
  ```
  if p.LastError < p.ParserData.Pos { p.LastError = p.ParserData.Pos }
  ``` -/
def UpdateError (s : State) : State :=
  if s.LastError < s.Pos then { s with LastError := s.Pos } else s

/-- What `needAllGroup.Add` builds, closed by the brace loop of `EndGroup`:
  ```
  <c1>
  if accept {
    <c2>
    if accept {
      ...
    }
  }
  ``` -/
def needAllChain : List Fragment → Fragment
  | [] => fun s => some s
  | c :: cs => fun s =>
    match c s with
    | none => none
    | some s1 => if s1.accept then needAllChain cs s1 else some s1

/-- `BeginGroup(true)`, `Add` for each child, `EndGroup`:
  ```
  { save := p.ParserData.Pos
    <chain>
    if !accept {
      <UpdateError>
      p.ParserData.Pos = save } }
  ``` -/
def needAllGroup (cs : List Fragment) : Fragment := fun s =>
  let save := s.Pos
  match needAllChain cs s with
  | none => none
  | some s1 => if !s1.accept then some { UpdateError s1 with Pos := save } else some s1

/-- What `needOneGroup.Add` builds, closed by the brace loop of `EndGroup`:
  ```
  <c1>
  if !accept {
    <c2>
    if !accept {
      ...
    }
  }
  ``` -/
def needOneChain : List Fragment → Fragment
  | [] => fun s => some s
  | c :: cs => fun s =>
    match c s with
    | none => none
    | some s1 => if !s1.accept then needOneChain cs s1 else some s1

/-- `BeginGroup(false)`, `Add` for each child, `EndGroup`:
  ```
  { save := p.ParserData.Pos
    <chain>
    if !accept { p.ParserData.Pos = save } }
  ``` -/
def needOneGroup (cs : List Fragment) : Fragment := fun s =>
  let save := s.Pos
  match needOneChain cs s with
  | none => none
  | some s1 => if !s1.accept then some { s1 with Pos := save } else some s1

/-! ## The parse tree: `node.go` -/

/-- The loop of `Node.Discard`, entered with `k = i + 1`:
  ```
  for i := back - 1; i >= 0; i-- {
    node := n.Children[i]
    if node.Range.End() <= pos { popIdx = i + 1; break } }
  ```
The result is `popIdx` (0 when the loop runs out). -/
def discardScan (cs : List Node) (pos : Int) : Nat → Nat
  | 0 => 0
  | i + 1 =>
    match cs.get? i with
    | none => 0
    | some node => if node.Range.End ≤ pos then i + 1 else discardScan cs pos i

/-- `Node.Discard(pos)`:
  ```
  back := len(n.Children)
  popIdx := 0
  <loop>
  if popIdx != back { n.Children = n.Children[:popIdx] }
  ``` -/
def Node.Discard (n : Node) (pos : Int) : Node :=
  let back := n.Children.length
  let popIdx := discardScan n.Children pos back
  if popIdx ≠ back then { n with Children := n.Children.take popIdx } else n

/-- The loop of `Node.Cleanup`, entered with `k = i + 1` and the current `popEnd`:
  ```
  for i := back - 1; i >= 0; i-- {
    node := n.Children[i]
    if node.Range.End() <= pos { popIdx = i + 1; break }
    if node.Range.Begin() > end { popEnd = i + 1 } }
  ```
The result is `(popIdx, popEnd)`. -/
def cleanupScan (cs : List Node) (pos end_ : Int) : Nat → Nat → Nat × Nat
  | 0, popEnd => (0, popEnd)
  | i + 1, popEnd =>
    match cs.get? i with
    | none => (0, popEnd)
    | some node =>
      if node.Range.End ≤ pos then (i + 1, popEnd)
      else cleanupScan cs pos end_ i (if node.Range.Begin > end_ then i + 1 else popEnd)

/-- `Node.Cleanup(pos, end)`: the returned node `popped` and the receiver afterwards.
  ```
  popped.Range = text.Region{pos, end}
  back := len(n.Children); popIdx := 0; popEnd := back
  if end == 0 { end = -1 }
  if pos == 0 { pos = -1 }
  <loop>
  if popEnd != 0 { popped.Children = copy of n.Children[popIdx:popEnd] }
  if popIdx != back { n.Children = n.Children[:popIdx] }
  return &popped
  ``` -/
def Node.Cleanup (n : Node) (pos end_ : Int) : Node × Node :=
  let back := n.Children.length
  let end1 : Int := if end_ = 0 then -1 else end_
  let pos1 : Int := if pos = 0 then -1 else pos
  let r := cleanupScan n.Children pos1 end1 back back
  let popIdx := r.1
  let popEnd := r.2
  let popped : Node :=
    { Range := ⟨pos, end_⟩, Name := "",
      Children := if popEnd ≠ 0 then (n.Children.take popEnd).drop popIdx else [] }
  (popped, if popIdx ≠ back then { n with Children := n.Children.take popIdx } else n)

/-- `Node.Append(child)`. -/
def Node.Append (n child : Node) : Node :=
  { n with Children := n.Children ++ [child] }

/-- Modelled from the spec: `Range.Clip`, which the text emitted by `AddNode` calls on
the new node's range to change it in place, is not in src.  The spec has a node's range "clipped to exclude
any overlap with the current `ignoreRange`", and in its scenario the ignore span `[5,7)`
turns a node spanning `[5,9)` into `[7,9)`: an ignore span over the start of the range
moves the start to the span's end, one over the end of the range moves the end to the
span's start. -/
def Region.Clip (r : Region) (ignore : Range) : Region :=
  { A := if ignore.Start ≤ r.A ∧ r.A < ignore.End then ignore.End else r.A,
    B := if ignore.Start < r.B ∧ r.B ≤ ignore.End then ignore.Start else r.B }

/-! ## Rule wrappers -/

/-- `AddNode(data, defName)`:
  ```
  accept = true
  start := p.ParserData.Pos
  <data>
  end := p.ParserData.Pos
  if accept {
    node := p.Root.Cleanup(start, end)
    node.Name = defName
    node.Range.Clip(p.IgnoreRange)
    p.Root.Append(node)
  } else {
    p.Root.Discard(start)
  }
  if p.IgnoreRange.Start >= end || p.IgnoreRange.End <= start { p.IgnoreRange = Range{} }
  ``` -/
def AddNode (data : Fragment) (defName : String) : Fragment := fun s =>
  let start := s.Pos
  match data { s with accept := true } with
  | none => none
  | some s1 =>
    let end_ := s1.Pos
    let s2 : State :=
      if s1.accept then
        let r := s1.Root.Cleanup start end_
        let node : Node :=
          { r.1 with Name := defName, Range := r.1.Range.Clip s1.IgnoreRange }
        { s1 with Root := r.2.Append node }
      else { s1 with Root := s1.Root.Discard start }
    if s2.IgnoreRange.Start ≥ end_ ∨ s2.IgnoreRange.End ≤ start then
      some { s2 with IgnoreRange := ⟨0, 0⟩ }
    else some s2

/-- `Ignore(data)`:
  ```
  accept = true
  start := p.ParserData.Pos
  <data>
  if accept && start != p.ParserData.Pos {
    if start < p.IgnoreRange.Start || p.IgnoreRange.Start == 0 { p.IgnoreRange.Start = start }
    p.IgnoreRange.End = p.ParserData.Pos }
  ``` -/
def Ignore (data : Fragment) : Fragment := fun s =>
  let start := s.Pos
  match data { s with accept := true } with
  | none => none
  | some s1 =>
    if s1.accept ∧ start ≠ s1.Pos then
      let s2 : State :=
        if start < s1.IgnoreRange.Start ∨ s1.IgnoreRange.Start = 0 then
          { s1 with IgnoreRange := { s1.IgnoreRange with Start := start } }
        else s1
      some { s2 with IgnoreRange := { s2.IgnoreRange with End := s1.Pos } }
    else some s1

/-! ## Grammars -/

/-- Grammar expressions, the variants of the spec's data model. -/
inductive Expr where
  | Literal (a : List Nat)
  | CharRange (a b : List Nat)
  | CharSet (members : List Nat)
  | AnyChar
  | AndLookahead (e : Expr)
  | NotLookahead (e : Expr)
  | ZeroOrMore (e : Expr)
  | OneOrMore (e : Expr)
  | Optional (e : Expr)
  | Sequence (children : List Expr)
  | Choice (children : List Expr)
  | RuleReference (name : String)

/-- How `MakeParserFunction` wraps a rule's body: `AddNode` by default, or the custom
action registered for the rule's name; `Ignore` is the wrapper the generator offers for
skip rules. -/
inductive Action where
  | default
  | ignore
  deriving DecidableEq

/-- A rule definition: name, body, wrapper. -/
structure Definition where
  name : String
  body : Expr
  action : Action

/-- `MakeParserFunction` for a rule whose compiled body is `data`, together with the
call `accept = p_<name>(p)`:
  ```
  func p_<name>(p) bool {
    accept := false
    <AddNode(data, name) or the custom action's text>
    return accept }
  ``` -/
def MakeParserFunction (d : Definition) (data : Fragment) : Fragment := fun s =>
  match d.action with
  | .default => AddNode data d.name { s with accept := false }
  | .ignore => Ignore data { s with accept := false }

/-- Modelled from the spec: the dispatch from a grammar expression to the generator's
methods (`helper`, which `MakeParserFunction` calls) is not in src.  Following the
translation table of the spec, each variant goes to its method: `Literal` to
`CheckNext`, `CharRange` to `CheckInRange`, `CharSet` to `CheckInSet`, `AnyChar` to
`CheckAnyChar`, the lookaheads to `AssertAnd` and `AssertNot`, the repetitions to
`ZeroOrMore` and `OneOrMore`, `Optional` to `Maybe`, `Sequence` and `Choice` to
`BeginGroup`/`Add`/`EndGroup`, and a reference to the call of the named rule's
function.  `rec` runs a sub-expression, `fuel` bounds the loops. -/
def execStep (G : List Definition) (fuel : Nat) (rec : Expr → Fragment) : Expr → Fragment
  | .Literal a => CheckNext a
  | .CharRange a b => CheckInRange a b
  | .CharSet a => CheckInSet a
  | .AnyChar => CheckAnyChar
  | .AndLookahead e => AssertAnd (rec e)
  | .NotLookahead e => AssertNot (rec e)
  | .ZeroOrMore e => ZeroOrMore fuel (rec e)
  | .OneOrMore e => OneOrMore fuel (rec e)
  | .Optional e => Maybe (rec e)
  | .Sequence es => needAllGroup (es.map rec)
  | .Choice es => needOneGroup (es.map rec)
  | .RuleReference name =>
    match G.find? (fun d => d.name = name) with
    | none => fun _ => none
    | some d => MakeParserFunction d (rec d.body)

/-- Running the fragment compiled from an expression of grammar `G`; the fuel bounds
the nesting of expressions and rule calls and the iterations of each loop. -/
def exec (G : List Definition) : Nat → Expr → Fragment
  | 0 => fun _ _ => none
  | n + 1 => execStep G n (exec G n)

/-! ## Vocabulary of the statements -/

/-- The fragments `cs`, applied one after the other from `s`, all finish with
`accept = true`; the result is the state the last one leaves (`s` itself for no
fragment). -/
def allAccept : List Fragment → State → Option State
  | [], s => some s
  | c :: cs, s =>
    match c s with
    | none => none
    | some s1 => if s1.accept then allAccept cs s1 else none

/-- The fragments `cs`, applied one after the other from `s`, all finish with
`accept = false`; the result is the state the last one leaves (`s` itself for no
fragment). -/
def allFail : List Fragment → State → Option State
  | [], s => some s
  | c :: cs, s =>
    match c s with
    | none => none
    | some s1 => if s1.accept then none else allFail cs s1

/-- A fragment restores the cursor when it reports failure. -/
def Restores (f : Fragment) : Prop :=
  ∀ s s', f s = some s' → s'.accept = false → s'.Pos = s.Pos

/-! ## Sample inputs -/

/-- The root of a fresh parse: no children. -/
def emptyRoot : Node := ⟨⟨0, 0⟩, "", []⟩

/-- A state as `Parse` sets it up, entered at `pos`: `IgnoreRange` unset, `LastError`
0, an empty root. -/
def entryState (d : List Nat) (pos : Int) : State := ⟨false, pos, d, ⟨0, 0⟩, emptyRoot, 0⟩

/-- The grammar `Digits <- [0-9]+`. -/
def digitsGrammar : List Definition :=
  [⟨"Digits", .OneOrMore (.CharRange [48] [57]), .default⟩]

/-- The grammar `R <- WS "ab"`, `WS <- ' '+`, with `WS` wrapped by `Ignore`. -/
def spacedGrammar : List Definition :=
  [⟨"R", .Sequence [.RuleReference "WS", .Literal [34, 97, 98, 34]], .default⟩,
   ⟨"WS", .OneOrMore (.Literal [39, 32, 39]), .ignore⟩]

/-- A fragment that reports failure and leaves the cursor three bytes further. -/
def strayFail : Fragment := fun s => some { s with Pos := s.Pos + 3, accept := false }

/-! ## The parse tree: `Simplify` and `UpdateRange` -/

mutual
/-- `Node.Simplify()`:
  ```
  for _, child := range n.Children { child.Simplify() }
  if len(n.Children) == 1 && n.Children[0].Range == n.Range { *n = *n.Children[0] }
  ```
The children are distinct nodes (a tree), so simplifying one in place leaves the others
alone. -/
def Node.Simplify : Node → Node
  | ⟨r, nm, cs⟩ =>
    match simplifyChildren cs with
    | [c] => if c.Range = r then c else ⟨r, nm, [c]⟩
    | cs' => ⟨r, nm, cs'⟩
/-- The loop of `Node.Simplify` over the children. -/
def simplifyChildren : List Node → List Node
  | [] => []
  | c :: cs => c.Simplify :: simplifyChildren cs
end

mutual
/-- `Node.UpdateRange()`: the returned region and the node afterwards.
  ```
  for _, child := range n.Children { <body> }
  return n.Range
  ``` -/
def Node.UpdateRange : Node → Region × Node
  | ⟨r, nm, cs⟩ =>
    let p := updateChildren r cs
    (p.1, ⟨p.1, nm, p.2⟩)
/-- The loop of `Node.UpdateRange`, from the current `n.Range` over the remaining
children: the final `n.Range` and the children afterwards.
  ```
  curr := child.UpdateRange()
  if curr.Begin() < n.Range.A { n.Range.A = curr.Begin() }
  if curr.End() > n.Range.B { n.Range.B = curr.End() }
  ``` -/
def updateChildren : Region → List Node → Region × List Node
  | r, [] => (r, [])
  | r, c :: cs =>
    let q := c.UpdateRange
    let curr := q.1
    let r1 : Region := if curr.Begin < r.A then { r with A := curr.Begin } else r
    let r2 : Region := if curr.End > r1.B then { r1 with B := curr.End } else r1
    let p := updateChildren r2 cs
    (p.1, q.2 :: p.2)
end

mutual
/-- Every node of a tree: the node itself and the nodes of its children's trees. -/
def Node.subnodes : Node → List Node
  | ⟨r, nm, cs⟩ => ⟨r, nm, cs⟩ :: subnodesList cs
/-- Every node of the trees of a list of nodes. -/
def subnodesList : List Node → List Node
  | [] => []
  | c :: cs => c.subnodes ++ subnodesList cs
end

/-! ## The generated `Error()` -/

/-- The loop of the generated `Error()`, from the current `(line, column)` over the
remaining bytes:
  ```
  for _, r := range p.ParserData.Data[:p.LastError] {
    column++
    if r == '\n' { line++; column = 1 } }
  ``` -/
def errorScan : List Nat → Nat × Nat → Nat × Nat
  | [], lc => lc
  | r :: rest, lc =>
    if r = 10 then errorScan rest (lc.1 + 1, 1) else errorScan rest (lc.1, lc.2 + 1)

/-- The generated `Error()`: line, column and message handed to `NewError`.
  ```
  line := 1; column := 1
  <loop>
  if p.LastError == len(p.ParserData.Data) { errstr = "Unexpected EOF" } else {
    e := p.LastError + 4
    if e > len(p.ParserData.Data) { e = len(p.ParserData.Data) }
    reader := bytes.NewReader(p.ParserData.Data[p.LastError:e])
    r, _, _ := reader.ReadRune()
    if r == '\r' || r == '\n' { errstr = "Unexpected new line" }
    else { errstr = "Unexpected " + string(r) } }
  return NewError(line, column, errstr)
  ```
`readRune` is `ReadRune` of Go's `bytes.Reader` (the rune at the head of the bytes);
`string(r)` is the one-character string of the rune.  With `LastError` outside
`0 .. len(Data)` the slice expression is out of range. -/
def Error (readRune : List Nat → Nat) (s : State) : Option (Nat × Nat × String) :=
  if 0 ≤ s.LastError ∧ s.LastError ≤ len s then
    let lc := errorScan (s.Data.take s.LastError.toNat) (1, 1)
    let errstr : String :=
      if s.LastError = len s then "Unexpected EOF"
      else
        let e : Int := if s.LastError + 4 > len s then len s else s.LastError + 4
        let r := readRune ((s.Data.take e.toNat).drop s.LastError.toNat)
        if r = 13 ∨ r = 10 then "Unexpected new line"
        else "Unexpected " ++ String.singleton (Char.ofNat r)
    some (lc.1, lc.2, errstr)
  else none

/-! ## Sample trees -/

/-- A leaf spanning `[a, b)`. -/
def leaf (a b : Int) (name : String) : Node := ⟨⟨a, b⟩, name, []⟩

/-- A parent with the given children and a zero range. -/
def parentOf (cs : List Node) : Node := ⟨⟨0, 0⟩, "", cs⟩

/-! ## Vocabulary of the statements on trees -/

/-- One turn of the loop of `UpdateRange` on the range `r` with the child's region
`curr`. -/
def widen (r curr : Region) : Region :=
  let r1 : Region := if curr.Begin < r.A then { r with A := curr.Begin } else r
  if curr.End > r1.B then { r1 with B := curr.End } else r1

/-- A node's range contains the range of each of its children. -/
def Node.ContainsChildren (m : Node) : Prop :=
  ∀ c ∈ m.Children, m.Range.A ≤ c.Range.Begin ∧ c.Range.End ≤ m.Range.B

/-! ## More sample inputs -/

/-- The grammar `A <- "ab" / "ac"`, each alternative a literal. -/
def choiceGrammar : List Definition :=
  [⟨"A", .Choice [.Literal [34, 97, 98, 34], .Literal [34, 97, 99, 34]], .default⟩]

/-- The grammar `A <- "ab" / "ac"`, each alternative a sequence of one literal. -/
def choiceOfSequencesGrammar : List Definition :=
  [⟨"A", .Choice [.Sequence [.Literal [34, 97, 98, 34]],
      .Sequence [.Literal [34, 97, 99, 34]]], .default⟩]

/-- The body `' '+` of a skip rule. -/
def spacesBody : Fragment := OneOrMore 3 (CheckNext [39, 32, 39])

/-- A rune reader for buffers of one-byte characters: the first byte. -/
def firstByte (bs : List Nat) : Nat := bs.headD 0

/-! ## The primitive matchers as one family -/

theorem forAccept_accept (a : Fragment) (fuel : Nat) (s s' : State)
    (h : forAccept a fuel s = some s') : s'.accept = false := by
  induction fuel generalizing s with
  | zero =>
    rw [forAccept.eq_def] at h
    by_cases hacc : s.accept = true
    · simp [hacc] at h
    · simp only [hacc] at h
      simp at h; subst h; simpa using hacc
  | succ n ih =>
    rw [forAccept.eq_def] at h
    by_cases hacc : s.accept = true
    · simp only [hacc, if_true] at h
      cases ha : a s with
      | none => simp [ha] at h
      | some s1 => simp only [ha] at h; exact ih s1 h
    · simp only [hacc] at h
      simp at h; subst h; simpa using hacc

theorem ZeroOrMore_accepts (e : Fragment) (fuel : Nat) (s s' : State)
    (h : ZeroOrMore fuel e s = some s') : s'.accept = true := by
  unfold ZeroOrMore at h
  cases hl : forAccept e fuel { s with accept := true } with
  | none => simp [hl] at h
  | some s1 =>
    simp only [hl, Option.some.injEq] at h
    subst h; rfl

theorem needAllChain_of_allAccept (cs : List Fragment) (s s1 : State)
    (h : allAccept cs s = some s1) : needAllChain cs s = some s1 := by
  induction cs generalizing s with
  | nil => simpa [allAccept, needAllChain] using h
  | cons c cs ih =>
    simp only [allAccept] at h
    simp only [needAllChain]
    cases hc : c s with
    | none => simp [hc] at h
    | some t =>
      simp only [hc] at h ⊢
      by_cases ht : t.accept = true
      · simp only [ht, if_true] at h ⊢
        exact ih t h
      · simp [ht] at h

theorem allAccept_accept (cs : List Fragment) (s s1 : State) (hne : cs ≠ [])
    (h : allAccept cs s = some s1) : s1.accept = true := by
  induction cs generalizing s with
  | nil => exact absurd rfl hne
  | cons c cs ih =>
    simp only [allAccept] at h
    cases hc : c s with
    | none => simp [hc] at h
    | some t =>
      simp only [hc] at h
      by_cases ht : t.accept = true
      · simp only [ht, if_true] at h
        cases cs with
        | nil => simp only [allAccept, Option.some.injEq] at h; subst h; exact ht
        | cons c' cs' => exact ih t (List.cons_ne_nil _ _) h
      · simp [ht] at h

theorem needAllChain_stop (pre : List Fragment) (c : Fragment) (post : List Fragment)
    (s s0 s1 : State) (hpre : allAccept pre s = some s0) (hc : c s0 = some s1)
    (hf : s1.accept = false) : needAllChain (pre ++ c :: post) s = some s1 := by
  induction pre generalizing s with
  | nil =>
    simp only [allAccept, Option.some.injEq] at hpre
    subst hpre
    simp [needAllChain, hc, hf]
  | cons a pre ih =>
    simp only [allAccept] at hpre
    simp only [List.cons_append, needAllChain]
    cases ha : a s with
    | none => simp [ha] at hpre
    | some t =>
      simp only [ha] at hpre ⊢
      by_cases ht : t.accept = true
      · simp only [ht, if_true] at hpre ⊢
        exact ih t hpre
      · simp [ht] at hpre

theorem needAllChain_split (cs : List Fragment) (s s1 : State) (hne : cs ≠ [])
    (h : needAllChain cs s = some s1) (hf : s1.accept = false) :
    ∃ pre c post s0, cs = pre ++ c :: post ∧ allAccept pre s = some s0 ∧ c s0 = some s1 := by
  induction cs generalizing s with
  | nil => exact absurd rfl hne
  | cons a cs ih =>
    simp only [needAllChain] at h
    cases ha : a s with
    | none => simp [ha] at h
    | some t =>
      simp only [ha] at h
      by_cases ht : t.accept = true
      · simp only [ht, if_true] at h
        cases cs with
        | nil =>
          simp only [needAllChain, Option.some.injEq] at h
          subst h; rw [ht] at hf; exact absurd hf (by simp)
        | cons c' cs' =>
          obtain ⟨pre, c, post, s0, hcs, hpre, hc⟩ := ih t (List.cons_ne_nil _ _) h
          refine ⟨a :: pre, c, post, s0, by rw [hcs]; rfl, ?_, hc⟩
          simp only [allAccept, ha, ht, if_true, hpre]
      · have : t.accept = false := by simpa using ht
        simp only [this, Bool.false_eq_true, if_false, Option.some.injEq] at h
        subst h
        exact ⟨[], a, cs, s, rfl, rfl, ha⟩

theorem allAccept_snoc (pre : List Fragment) (c : Fragment) (s s0 s1 : State)
    (hpre : allAccept pre s = some s0) (hc : c s0 = some s1) (ht : s1.accept = true) :
    allAccept (pre ++ [c]) s = some s1 := by
  induction pre generalizing s with
  | nil =>
    simp only [allAccept, Option.some.injEq] at hpre
    subst hpre
    simp [allAccept, hc, ht]
  | cons a pre ih =>
    simp only [allAccept] at hpre
    simp only [List.cons_append, allAccept]
    cases ha : a s with
    | none => simp [ha] at hpre
    | some t =>
      simp only [ha] at hpre ⊢
      by_cases hta : t.accept = true
      · simp only [hta, if_true] at hpre ⊢
        exact ih t hpre
      · simp [hta] at hpre

theorem needOneChain_of_allFail (cs : List Fragment) (s s1 : State)
    (h : allFail cs s = some s1) : needOneChain cs s = some s1 := by
  induction cs generalizing s with
  | nil => simpa [allFail, needOneChain] using h
  | cons c cs ih =>
    simp only [allFail] at h
    simp only [needOneChain]
    cases hc : c s with
    | none => simp [hc] at h
    | some t =>
      simp only [hc] at h ⊢
      by_cases ht : t.accept = true
      · simp [ht] at h
      · have htf : t.accept = false := by simpa using ht
        simp only [htf, Bool.false_eq_true, if_false, Bool.not_false, if_true] at h ⊢
        exact ih t h

theorem allFail_accept (cs : List Fragment) (s s1 : State) (hne : cs ≠ [])
    (h : allFail cs s = some s1) : s1.accept = false := by
  induction cs generalizing s with
  | nil => exact absurd rfl hne
  | cons c cs ih =>
    simp only [allFail] at h
    cases hc : c s with
    | none => simp [hc] at h
    | some t =>
      simp only [hc] at h
      by_cases ht : t.accept = true
      · simp [ht] at h
      · have htf : t.accept = false := by simpa using ht
        simp only [htf, Bool.false_eq_true, if_false] at h
        cases cs with
        | nil => simp only [allFail, Option.some.injEq] at h; subst h; exact htf
        | cons c' cs' => exact ih t (List.cons_ne_nil _ _) h

theorem needOneChain_stop (pre : List Fragment) (c : Fragment) (post : List Fragment)
    (s s0 s1 : State) (hpre : allFail pre s = some s0) (hc : c s0 = some s1)
    (ht : s1.accept = true) : needOneChain (pre ++ c :: post) s = some s1 := by
  induction pre generalizing s with
  | nil =>
    simp only [allFail, Option.some.injEq] at hpre
    subst hpre
    simp [needOneChain, hc, ht]
  | cons a pre ih =>
    simp only [allFail] at hpre
    simp only [List.cons_append, needOneChain]
    cases ha : a s with
    | none => simp [ha] at hpre
    | some t =>
      simp only [ha] at hpre ⊢
      by_cases hta : t.accept = true
      · simp [hta] at hpre
      · have htf : t.accept = false := by simpa using hta
        simp only [htf, Bool.false_eq_true, if_false, Bool.not_false, if_true] at hpre ⊢
        exact ih t hpre

theorem needOneChain_split (cs : List Fragment) (s s1 : State)
    (h : needOneChain cs s = some s1) (ht : s1.accept = true) (hne : cs ≠ []) :
    ∃ pre c post s0, cs = pre ++ c :: post ∧ allFail pre s = some s0 ∧ c s0 = some s1 := by
  induction cs generalizing s with
  | nil => exact absurd rfl hne
  | cons a cs ih =>
    simp only [needOneChain] at h
    cases ha : a s with
    | none => simp [ha] at h
    | some t =>
      simp only [ha] at h
      by_cases hta : t.accept = true
      · simp only [hta, Bool.not_true, Bool.false_eq_true, if_false, Option.some.injEq] at h
        subst h
        exact ⟨[], a, cs, s, rfl, rfl, ha⟩
      · have htf : t.accept = false := by simpa using hta
        simp only [htf, Bool.not_false, if_true] at h
        cases cs with
        | nil =>
          simp only [needOneChain, Option.some.injEq] at h
          subst h; rw [htf] at ht; exact absurd ht (by simp)
        | cons c' cs' =>
          obtain ⟨pre, c, post, s0, hcs, hpre, hc⟩ := ih t h (List.cons_ne_nil _ _)
          refine ⟨a :: pre, c, post, s0, by rw [hcs]; rfl, ?_, hc⟩
          simp only [allFail, ha, htf, Bool.false_eq_true, if_false, hpre]

theorem allFail_pos (cs : List Fragment) (hcs : ∀ c ∈ cs, Restores c) (s s0 : State)
    (h : allFail cs s = some s0) : s0.Pos = s.Pos := by
  induction cs generalizing s with
  | nil => simp only [allFail, Option.some.injEq] at h; rw [h]
  | cons c cs ih =>
    simp only [allFail] at h
    cases hc : c s with
    | none => simp [hc] at h
    | some t =>
      simp only [hc] at h
      by_cases ht : t.accept = true
      · simp [ht] at h
      · have htf : t.accept = false := by simpa using ht
        simp only [htf, Bool.false_eq_true, if_false] at h
        rw [ih (fun x hx => hcs x (List.mem_cons_of_mem _ hx)) t h]
        exact hcs c (List.mem_cons_self _ _) s t hc htf

theorem CheckInRange_restores (a b : List Nat) : Restores (CheckInRange a b) := by
  intro s s' h hf
  unfold CheckInRange at h
  split at h
  · split at h
    · simp only [Option.some.injEq] at h; subst h; rfl
    · split at h
      · simp at h
      · split at h
        · simp only [Option.some.injEq] at h; subst h; simp at hf
        · simp only [Option.some.injEq] at h; subst h; rfl
  · simp at h

theorem CheckInSet_restores (a : List Nat) : Restores (CheckInSet a) := by
  intro s s' h hf
  unfold CheckInSet at h
  split at h
  · simp at h
  · simp at h
  · split at h
    · split at h
      · simp at h
      · split at h
        · simp only [Option.some.injEq] at h; subst h; simp at hf
        · simp only [Option.some.injEq] at h; subst h; rfl
    · simp only [Option.some.injEq] at h; subst h; rfl

theorem CheckAnyChar_restores : Restores CheckAnyChar := by
  intro s s' h hf
  unfold CheckAnyChar at h
  split at h
  · simp only [Option.some.injEq] at h; subst h; rfl
  · simp only [Option.some.injEq] at h; subst h; simp at hf

theorem CheckNext_restores (a : List Nat) : Restores (CheckNext a) := by
  intro s s' h hf
  unfold CheckNext at h
  split at h
  · simp at h
  · split at h
    · simp at h
    · split at h
      · simp only [Option.some.injEq] at h; subst h; rfl
      · split at h
        · simp at h
        · split at h
          · simp only [Option.some.injEq] at h; subst h; rfl
          · simp only [Option.some.injEq] at h; subst h; simp at hf
  · split at h
    · simp at h
    · simp at h
    · simp only at h
      split at h
      · simp only [Option.some.injEq] at h; subst h; rfl
      · split at h
        · simp at h
        · simp only [Option.some.injEq] at h; subst h; rfl
        · simp only [Option.some.injEq] at h; subst h; simp at hf

theorem AssertAnd_restores (a : Fragment) : Restores (AssertAnd a) := by
  intro s s' h _
  unfold AssertAnd at h
  split at h
  · simp at h
  · simp only [Option.some.injEq] at h; subst h; rfl

theorem AssertNot_restores (a : Fragment) : Restores (AssertNot a) := by
  intro s s' h _
  unfold AssertNot at h
  split at h
  · simp at h
  · simp only [Option.some.injEq] at h; subst h; rfl

theorem ZeroOrMore_restores (fuel : Nat) (a : Fragment) : Restores (ZeroOrMore fuel a) := by
  intro s s' h hf
  have := ZeroOrMore_accepts a fuel s s' h
  rw [this] at hf; exact absurd hf (by simp)

theorem OneOrMore_restores (fuel : Nat) (a : Fragment) : Restores (OneOrMore fuel a) := by
  intro s s' h hf
  unfold OneOrMore at h
  cases he : a s with
  | none => simp [he] at h
  | some s1 =>
    simp only [he] at h
    by_cases hacc : s1.accept = true
    · simp only [hacc, Bool.not_true, Bool.false_eq_true, if_false] at h
      cases hl : forAccept a fuel s1 with
      | none => simp [hl] at h
      | some s2 =>
        simp only [hl, Option.some.injEq] at h
        subst h
        simp at hf
    · have hf1 : s1.accept = false := by simpa using hacc
      simp only [hf1, Bool.not_false, if_true, Option.some.injEq] at h
      subst h
      rfl

theorem Maybe_restores (a : Fragment) : Restores (Maybe a) := by
  intro s s' h hf
  unfold Maybe at h
  split at h
  · simp at h
  · simp only [Option.some.injEq] at h; subst h; simp at hf

theorem needAllGroup_restores (cs : List Fragment) : Restores (needAllGroup cs) := by
  intro s s' h hf
  unfold needAllGroup at h
  simp only at h
  split at h
  · simp at h
  · split at h
    · simp only [Option.some.injEq] at h; subst h; rfl
    · rename_i s1 _ hacc
      simp only [Option.some.injEq] at h; subst h
      simp [hf] at hacc

theorem needOneGroup_restores (cs : List Fragment) : Restores (needOneGroup cs) := by
  intro s s' h hf
  unfold needOneGroup at h
  simp only at h
  split at h
  · simp at h
  · split at h
    · simp only [Option.some.injEq] at h; subst h; rfl
    · rename_i s1 _ hacc
      simp only [Option.some.injEq] at h; subst h
      simp [hf] at hacc

theorem AddNode_restores (data : Fragment) (hd : Restores data) (name : String) :
    ∀ s s', AddNode data name s = some s' → s'.accept = false → s'.Pos = s.Pos := by
  intro s s' h hf
  unfold AddNode at h
  simp only at h
  cases hdat : data { s with accept := true } with
  | none => simp [hdat] at h
  | some s1 =>
    simp only [hdat] at h
    have hacc : s'.accept = s1.accept ∧ s'.Pos = s1.Pos := by
      split at h <;> split at h <;> simp only [Option.some.injEq] at h <;> subst h <;>
        exact ⟨rfl, rfl⟩
    rw [hacc.2]
    exact hd { s with accept := true } s1 hdat (by rw [← hacc.1]; exact hf)

theorem Ignore_restores (data : Fragment) (hd : Restores data) :
    ∀ s s', Ignore data s = some s' → s'.accept = false → s'.Pos = s.Pos := by
  intro s s' h hf
  unfold Ignore at h
  simp only at h
  cases hdat : data { s with accept := true } with
  | none => simp [hdat] at h
  | some s1 =>
    simp only [hdat] at h
    have hacc : s'.accept = s1.accept ∧ s'.Pos = s1.Pos := by
      split at h
      · simp only [Option.some.injEq] at h; subst h
        split <;> exact ⟨rfl, rfl⟩
      · simp only [Option.some.injEq] at h; subst h; exact ⟨rfl, rfl⟩
    rw [hacc.2]
    exact hd { s with accept := true } s1 hdat (by rw [← hacc.1]; exact hf)

theorem exec_restores (G : List Definition) (n : Nat) (e : Expr) : Restores (exec G n e) := by
  induction n generalizing e with
  | zero => intro s s' h; simp [exec] at h
  | succ n ih =>
    simp only [exec]
    cases e with
    | Literal a => exact CheckNext_restores a
    | CharRange a b => exact CheckInRange_restores a b
    | CharSet a => exact CheckInSet_restores a
    | AnyChar => exact CheckAnyChar_restores
    | AndLookahead e => exact AssertAnd_restores _
    | NotLookahead e => exact AssertNot_restores _
    | ZeroOrMore e => exact ZeroOrMore_restores _ _
    | OneOrMore e => exact OneOrMore_restores _ _
    | Optional e => exact Maybe_restores _
    | Sequence es => exact needAllGroup_restores _
    | Choice es => exact needOneGroup_restores _
    | RuleReference name =>
      simp only [execStep]
      cases hfind : G.find? (fun d => d.name = name) with
      | none => intro s s' h; simp at h
      | some d =>
        simp only
        intro s s' h hf
        unfold MakeParserFunction at h
        cases hact : d.action with
        | default =>
          simp only [hact] at h
          exact AddNode_restores _ (ih d.body) _ _ s' h hf
        | ignore =>
          simp only [hact] at h
          exact Ignore_restores _ (ih d.body) _ s' h hf

theorem discardScan_le (cs : List Node) (pos : Int) (k : Nat) : discardScan cs pos k ≤ k := by
  induction k with
  | zero => simp [discardScan]
  | succ i ih =>
    simp only [discardScan]
    split
    · omega
    · split
      · omega
      · omega

theorem discardScan_hit (cs : List Node) (pos : Int) (k : Nat) (h : 0 < discardScan cs pos k) :
    ∃ c, cs[discardScan cs pos k - 1]? = some c ∧ c.Range.End ≤ pos := by
  induction k with
  | zero => simp [discardScan] at h
  | succ i ih =>
    simp only [discardScan, List.get?_eq_getElem?] at h ⊢
    cases hnode : cs[i]? with
    | none => simp [hnode] at h
    | some node =>
      simp only [hnode] at h ⊢
      by_cases hle : node.Range.End ≤ pos
      · simp only [hle, if_true]
        exact ⟨node, by simpa using hnode, hle⟩
      · simp only [hle, if_false] at h ⊢
        exact ih h

theorem discardScan_miss (cs : List Node) (pos : Int) (k : Nat) (hk : k ≤ cs.length)
    (i : Nat) (h1 : discardScan cs pos k ≤ i) (h2 : i < k) :
    ∃ c, cs[i]? = some c ∧ ¬ c.Range.End ≤ pos := by
  induction k with
  | zero => omega
  | succ j ih =>
    simp only [discardScan, List.get?_eq_getElem?] at h1
    have hj : j < cs.length := by omega
    have hget : cs[j]? = some cs[j] := List.getElem?_eq_getElem hj
    simp only [hget] at h1
    by_cases hle : cs[j].Range.End ≤ pos
    · simp only [hle, if_true] at h1; omega
    · simp only [hle, if_false] at h1
      by_cases hij : i = j
      · subst hij; exact ⟨_, hget, hle⟩
      · exact ih (by omega) h1 (by omega)

theorem Discard_children (n : Node) (pos : Int) :
    (n.Discard pos).Children = n.Children.take (discardScan n.Children pos n.Children.length) := by
  unfold Node.Discard
  simp only
  split
  · rfl
  · rename_i h
    have : discardScan n.Children pos n.Children.length = n.Children.length := by
      simpa using h
    rw [this, List.take_length]

/-- C1: for every grammar expression (literals, character ranges and sets, any-char,
both lookaheads, both repetitions, option, sequence, choice, references to wrapped
rules), every grammar, buffer and entry state: if the compiled fragment finishes with
`accept = false`, the cursor `Pos` equals its value at fragment entry.  The bound
`0 <= Pos <= len(Data)` is not needed, and rules wrapped by `Ignore` are covered
too. -/
theorem exec_failure_restores_Pos (G : List Definition) (fuel : Nat) (e : Expr)
    (s s' : State) (h : exec G fuel e s = some s') (hf : s'.accept = false) :
    s'.Pos = s.Pos :=
  exec_restores G fuel e s s' h hf

/-- C1 at `S <- 'a' Digits`, `Digits <- [0-9]+` on the buffer `ab` from 0: the `a` is
consumed, `Digits` fails at 1, the run ends with `accept = false`, `Pos = 0`. -/
theorem exec_failure_restores_Pos_witness :
    exec (⟨"S", .Sequence [.Literal [39, 97, 39], .RuleReference "Digits"], .default⟩
          :: digitsGrammar) 6 (.RuleReference "S") (entryState [97, 98] 0)
      = some ⟨false, 0, [97, 98], ⟨0, 0⟩, emptyRoot, 1⟩ ∧
    (⟨false, 0, [97, 98], ⟨0, 0⟩, emptyRoot, 1⟩ : State).Pos = (entryState [97, 98] 0).Pos :=
  ⟨by decide!,
   exec_failure_restores_Pos
     (⟨"S", .Sequence [.Literal [39, 97, 39], .RuleReference "Digits"], .default⟩
        :: digitsGrammar) 6 (.RuleReference "S") (entryState [97, 98] 0)
     ⟨false, 0, [97, 98], ⟨0, 0⟩, emptyRoot, 1⟩ (by decide!) rfl⟩

/-- C2: for every all-required group with one or more arbitrary child fragments and
every entry state: if the group finishes with `accept = false`, then `Pos` after the
group equals `Pos` before it, and the children split as `pre ++ c :: post` where every
child of `pre` accepted, `c` is the first failing child, and no child of `post` was
applied: the group gives the same result whatever stands in place of `post`. -/
theorem needAllGroup_failure_atomic (cs : List Fragment) (s s' : State) (hne : cs ≠ [])
    (h : needAllGroup cs s = some s') (hf : s'.accept = false) :
    s'.Pos = s.Pos ∧
    ∃ pre c post s0 s1, cs = pre ++ c :: post ∧ allAccept pre s = some s0 ∧
      c s0 = some s1 ∧ s1.accept = false ∧
      ∀ post', needAllGroup (pre ++ c :: post') s = some s' := by
  unfold needAllGroup at h
  cases hch : needAllChain cs s with
  | none => simp [hch] at h
  | some s1 =>
    simp only [hch] at h
    by_cases h1 : s1.accept = true
    · simp only [h1, Bool.not_true, Bool.false_eq_true, if_false, Option.some.injEq] at h
      subst h; rw [h1] at hf; exact absurd hf (by simp)
    · have h1f : s1.accept = false := by simpa using h1
      simp only [h1f, Bool.not_false, if_true, Option.some.injEq] at h
      obtain ⟨pre, c, post, s0, hcs, hpre, hc⟩ := needAllChain_split cs s s1 hne hch h1f
      refine ⟨by rw [← h], pre, c, post, s0, s1, hcs, hpre, hc, h1f, ?_⟩
      intro post'
      simp only [needAllGroup, needAllChain_stop pre c post' s s0 s1 hpre hc h1f, h1f,
        Bool.not_false, if_true, h]

/-- C2 at the group of any-char, a child that fails three bytes further on, any-char,
on the buffer `ab` from 0: the group fails with `Pos = 0` (and `LastError = 4`). -/
theorem needAllGroup_failure_atomic_witness :
    (⟨false, 0, [97, 98], ⟨0, 0⟩, emptyRoot, 4⟩ : State).Pos = (entryState [97, 98] 0).Pos ∧
    ∃ pre c post s0 s1, [CheckAnyChar, strayFail, CheckAnyChar] = pre ++ c :: post ∧
      allAccept pre (entryState [97, 98] 0) = some s0 ∧
      c s0 = some s1 ∧ s1.accept = false ∧
      ∀ post', needAllGroup (pre ++ c :: post') (entryState [97, 98] 0)
        = some ⟨false, 0, [97, 98], ⟨0, 0⟩, emptyRoot, 4⟩ :=
  needAllGroup_failure_atomic [CheckAnyChar, strayFail, CheckAnyChar]
    (entryState [97, 98] 0) ⟨false, 0, [97, 98], ⟨0, 0⟩, emptyRoot, 4⟩
    (List.cons_ne_nil _ _) (by decide!) rfl

/-- C3: for every one-required group over one or more compiled child fragments `cs`
and every entry state `s` (cursor `save = s.Pos`): (1) an alternative `c` applied
after the alternatives `pre` before it have failed is applied in a state with
`Pos = save`; (2) a finished group has `accept = true` exactly when some alternative,
applied by the group at `save`, accepts; (3) when an alternative accepts after its
predecessors failed, the group finishes in exactly the state that alternative left,
whatever alternatives follow it (none of them is applied); (4) when every alternative
fails, the group finishes with `accept = false` and `Pos = save`. -/
theorem needOneGroup_compiled (G : List Definition) (n : Nat) (es : List Expr)
    (cs : List Fragment) (s : State) (hcs : cs = es.map (exec G n)) (hne : es ≠ []) :
    (∀ pre c post s0, cs = pre ++ c :: post → allFail pre s = some s0 → s0.Pos = s.Pos) ∧
    (∀ s', needOneGroup cs s = some s' →
      (s'.accept = true ↔ ∃ pre c post s0 s1, cs = pre ++ c :: post ∧
        allFail pre s = some s0 ∧ s0.Pos = s.Pos ∧ c s0 = some s1 ∧ s1.accept = true)) ∧
    (∀ pre c post s0 s1, cs = pre ++ c :: post → allFail pre s = some s0 →
      c s0 = some s1 → s1.accept = true →
      ∀ post', needOneGroup (pre ++ c :: post') s = some s1) ∧
    (∀ s0, allFail cs s = some s0 →
      ∃ s', needOneGroup cs s = some s' ∧ s'.accept = false ∧ s'.Pos = s.Pos) := by
  have hres : ∀ c ∈ cs, Restores c := by
    intro c hc
    rw [hcs] at hc
    obtain ⟨e, _, rfl⟩ := List.mem_map.mp hc
    exact exec_restores G n e
  have hcne : cs ≠ [] := by
    rw [hcs]; intro h; exact hne (List.map_eq_nil_iff.mp h)
  have h1 : ∀ pre c post s0, cs = pre ++ c :: post → allFail pre s = some s0 →
      s0.Pos = s.Pos := by
    intro pre c post s0 hsplit hpre
    exact allFail_pos pre (fun x hx => hres x (by rw [hsplit]; simp [hx])) s s0 hpre
  have h3 : ∀ (pre : List Fragment) (c : Fragment) (s0 s1 : State),
      allFail pre s = some s0 → c s0 = some s1 → s1.accept = true →
      ∀ post', needOneGroup (pre ++ c :: post') s = some s1 := by
    intro pre c s0 s1 hpre hc ht post'
    simp only [needOneGroup, needOneChain_stop pre c post' s s0 s1 hpre hc ht, ht,
      Bool.not_true, Bool.false_eq_true, if_false]
  refine ⟨h1, ?_, fun pre c post s0 s1 _ hpre hc ht => h3 pre c s0 s1 hpre hc ht, ?_⟩
  · intro s' hrun
    constructor
    · intro hacc
      unfold needOneGroup at hrun
      cases hch : needOneChain cs s with
      | none => simp [hch] at hrun
      | some s1 =>
        simp only [hch] at hrun
        by_cases ht : s1.accept = true
        · simp only [ht, Bool.not_true, Bool.false_eq_true, if_false,
            Option.some.injEq] at hrun
          subst hrun
          obtain ⟨pre, c, post, s0, hsplit, hpre, hc⟩ := needOneChain_split cs s s1 hch ht hcne
          exact ⟨pre, c, post, s0, s1, hsplit, hpre, h1 pre c post s0 hsplit hpre, hc, ht⟩
        · have htf : s1.accept = false := by simpa using ht
          simp only [htf, Bool.not_false, if_true, Option.some.injEq] at hrun
          subst hrun
          simp [htf] at hacc
    · rintro ⟨pre, c, post, s0, s1, hsplit, hpre, _, hc, ht⟩
      have := h3 pre c s0 s1 hpre hc ht post
      rw [← hsplit, hrun] at this
      cases this
      exact ht
  · intro s0 hall
    have hf := allFail_accept cs s s0 hcne hall
    refine ⟨{ s0 with Pos := s.Pos }, ?_, hf, rfl⟩
    simp only [needOneGroup, needOneChain_of_allFail cs s s0 hall, hf, Bool.not_false, if_true]

/-- C3 at the alternatives `"ab" / "ac"`: on the buffer `ac` from 0 the first fails, the
second is applied at 0 and accepts, and the group ends where it left the cursor, at 2;
on the buffer `ax` both fail and the group ends with `accept = false` at 0. -/
theorem needOneGroup_compiled_witness :
    (∀ post', needOneGroup ([exec [] 1 (.Literal [34, 97, 98, 34])] ++
        exec [] 1 (.Literal [34, 97, 99, 34]) :: post') (entryState [97, 99] 0)
      = some ⟨true, 2, [97, 99], ⟨0, 0⟩, emptyRoot, 0⟩) ∧
    (∃ s', needOneGroup [exec [] 1 (.Literal [34, 97, 98, 34]),
        exec [] 1 (.Literal [34, 97, 99, 34])] (entryState [97, 120] 0) = some s' ∧
      s'.accept = false ∧ s'.Pos = (entryState [97, 120] 0).Pos) :=
  ⟨(needOneGroup_compiled [] 1 [.Literal [34, 97, 98, 34], .Literal [34, 97, 99, 34]]
      [exec [] 1 (.Literal [34, 97, 98, 34]), exec [] 1 (.Literal [34, 97, 99, 34])]
      (entryState [97, 99] 0) rfl (List.cons_ne_nil _ _)).2.2.1
      [exec [] 1 (.Literal [34, 97, 98, 34])] (exec [] 1 (.Literal [34, 97, 99, 34])) []
      (entryState [97, 99] 0) ⟨true, 2, [97, 99], ⟨0, 0⟩, emptyRoot, 0⟩
      rfl (by decide!) (by decide!) rfl,
   (needOneGroup_compiled [] 1 [.Literal [34, 97, 98, 34], .Literal [34, 97, 99, 34]]
      [exec [] 1 (.Literal [34, 97, 98, 34]), exec [] 1 (.Literal [34, 97, 99, 34])]
      (entryState [97, 120] 0) rfl (List.cons_ne_nil _ _)).2.2.2
      (entryState [97, 120] 0) (by decide!)⟩

/-- C4: for every fragment `e` and every input on which the fragment of `OneOrMore(e)`
finishes: it reports `accept = false` if and only if the first application of `e`
(which then finished, in state `s1`) reports failure, and in that case `Pos` equals its
value before the attempt. -/
theorem OneOrMore_fails_iff (e : Fragment) (fuel : Nat) (s s' : State)
    (h : OneOrMore fuel e s = some s') :
    ∃ s1, e s = some s1 ∧ (s'.accept = false ↔ s1.accept = false) ∧
      (s'.accept = false → s'.Pos = s.Pos) := by
  unfold OneOrMore at h
  cases he : e s with
  | none => simp [he] at h
  | some s1 =>
    simp only [he] at h
    refine ⟨s1, rfl, ?_⟩
    by_cases hacc : s1.accept = true
    · simp only [hacc, Bool.not_true, Bool.false_eq_true, if_false] at h
      cases hl : forAccept e fuel s1 with
      | none => simp [hl] at h
      | some s2 =>
        simp only [hl, Option.some.injEq] at h
        subst h
        simp [hacc]
    · have hf : s1.accept = false := by simpa using hacc
      simp only [hf, Bool.not_false, if_true, Option.some.injEq] at h
      subst h
      simp [hf]

/-- C4 at a fragment that fails three bytes further on, on the buffer `ab` from 0:
`OneOrMore` reports failure with the cursor back at 0. -/
theorem OneOrMore_fails_iff_witness :
    ∃ s1, strayFail (entryState [97, 98] 0) = some s1 ∧
      ((⟨false, 0, [97, 98], ⟨0, 0⟩, emptyRoot, 0⟩ : State).accept = false ↔
        s1.accept = false) ∧
      ((⟨false, 0, [97, 98], ⟨0, 0⟩, emptyRoot, 0⟩ : State).accept = false →
        (⟨false, 0, [97, 98], ⟨0, 0⟩, emptyRoot, 0⟩ : State).Pos
          = (entryState [97, 98] 0).Pos) :=
  OneOrMore_fails_iff strayFail 0 (entryState [97, 98] 0)
    ⟨false, 0, [97, 98], ⟨0, 0⟩, emptyRoot, 0⟩ (by decide!)

/-- C5: for every fragment `e` (whatever it does to the cursor) and every input on
which `e` finishes, the fragments of `AssertAnd(e)` and `AssertNot(e)` finish and leave
`Pos` equal to its value at entry; `AssertAnd` reports what `e` reported, `AssertNot`
the opposite. -/
theorem lookahead_keeps_Pos (e : Fragment) (s s1 : State) (h : e s = some s1) :
    (∃ s', AssertAnd e s = some s' ∧ s'.Pos = s.Pos ∧ s'.accept = s1.accept) ∧
    (∃ s', AssertNot e s = some s' ∧ s'.Pos = s.Pos ∧ s'.accept = !s1.accept) := by
  constructor
  · exact ⟨{ s1 with Pos := s.Pos }, by simp only [AssertAnd, h], rfl, rfl⟩
  · exact ⟨{ s1 with Pos := s.Pos, accept := !s1.accept }, by simp only [AssertNot, h],
      rfl, rfl⟩

/-- C5 at a fragment that fails three bytes further on, on the buffer `ab` from 1. -/
theorem lookahead_keeps_Pos_witness :
    (∃ s', AssertAnd strayFail (entryState [97, 98] 1) = some s' ∧
      s'.Pos = (entryState [97, 98] 1).Pos ∧
      s'.accept = (⟨false, 4, [97, 98], ⟨0, 0⟩, emptyRoot, 0⟩ : State).accept) ∧
    (∃ s', AssertNot strayFail (entryState [97, 98] 1) = some s' ∧
      s'.Pos = (entryState [97, 98] 1).Pos ∧
      s'.accept = !(⟨false, 4, [97, 98], ⟨0, 0⟩, emptyRoot, 0⟩ : State).accept) :=
  lookahead_keeps_Pos strayFail (entryState [97, 98] 1)
    ⟨false, 4, [97, 98], ⟨0, 0⟩, emptyRoot, 0⟩ (by decide!)

/-- C8: for every all-required group and every entry state: if the children `pre`
all accept and the next child `c` fails, leaving the state `s1`, then the group
finishes with `LastError = max(L, P)` for `L = s1.LastError` and `P = s1.Pos` (the
position before the cursor is restored), whatever children follow `c`; if every child
succeeds (`c` being the last), the group finishes in exactly the state the last child
left, so it changes `LastError` no further. -/
theorem needAllGroup_LastError (pre : List Fragment) (c : Fragment) (s s0 s1 : State)
    (hpre : allAccept pre s = some s0) (hc : c s0 = some s1) :
    (s1.accept = false → ∀ post, ∃ s', needAllGroup (pre ++ c :: post) s = some s' ∧
      s'.LastError = max s1.LastError s1.Pos) ∧
    (s1.accept = true → needAllGroup (pre ++ [c]) s = some s1) := by
  constructor
  · intro hf post
    refine ⟨{ UpdateError s1 with Pos := s.Pos }, ?_, ?_⟩
    · simp only [needAllGroup, needAllChain_stop pre c post s s0 s1 hpre hc hf, hf,
        Bool.not_false, if_true]
    · simp only [UpdateError]
      by_cases hlt : s1.LastError < s1.Pos
      · simp only [hlt, if_true]; omega
      · simp only [hlt, if_false]; omega
  · intro ht
    have hall := allAccept_snoc pre c s s0 s1 hpre hc ht
    simp only [needAllGroup, needAllChain_of_allAccept _ _ _ hall, ht, Bool.not_true,
      Bool.false_eq_true, if_false]

/-- C8 at the group of any-char, a child that fails three bytes further on, any-char,
on the buffer `ab` from 0: the failing child returns with `Pos = 4`, `LastError = 0`,
and the group ends with `LastError = 4`; the group of two any-chars ends in the state
the second one left. -/
theorem needAllGroup_LastError_witness :
    (∃ s', needAllGroup ([CheckAnyChar] ++ strayFail :: [CheckAnyChar])
        (entryState [97, 98] 0) = some s' ∧
      s'.LastError = max (⟨false, 4, [97, 98], ⟨0, 0⟩, emptyRoot, 0⟩ : State).LastError
        (⟨false, 4, [97, 98], ⟨0, 0⟩, emptyRoot, 0⟩ : State).Pos) ∧
    needAllGroup ([CheckAnyChar] ++ [CheckAnyChar]) (entryState [97, 98] 0)
      = some ⟨true, 2, [97, 98], ⟨0, 0⟩, emptyRoot, 0⟩ :=
  ⟨(needAllGroup_LastError [CheckAnyChar] strayFail (entryState [97, 98] 0)
      ⟨true, 1, [97, 98], ⟨0, 0⟩, emptyRoot, 0⟩ ⟨false, 4, [97, 98], ⟨0, 0⟩, emptyRoot, 0⟩
      (by decide!) (by decide!)).1 rfl [CheckAnyChar],
   (needAllGroup_LastError [CheckAnyChar] CheckAnyChar (entryState [97, 98] 0)
      ⟨true, 1, [97, 98], ⟨0, 0⟩, emptyRoot, 0⟩ ⟨true, 2, [97, 98], ⟨0, 0⟩, emptyRoot, 0⟩
      (by decide!) (by decide!)).2 rfl⟩

/-- C9 as stated fails: with `R <- WS "ab"`, `WS <- ' '+` wrapped by `Ignore`, on the
buffer `01234  ab` entered at 5 with `IgnoreRange` unset, the body of `R` accepts with
`start = 5`, `end = 9`, but it has set `IgnoreRange` to `[5,7)`, and the node appended
to `Root` has the clipped range `[7,9)`, not `[5,9)`. -/
theorem AddNode_range_clipped :
    (entryState [48, 49, 50, 51, 52, 32, 32, 97, 98] 5).IgnoreRange = ⟨0, 0⟩ ∧
    (exec spacedGrammar 6 (.RuleReference "R")
        (entryState [48, 49, 50, 51, 52, 32, 32, 97, 98] 5)).map
      (fun s' => (s'.accept, s'.Pos, s'.Root.Children))
      = some (true, 9, [⟨⟨7, 9⟩, "R", []⟩]) :=
  ⟨rfl, by decide!⟩

/-- C9, amended: for every rule compiled with the default protocol (`AddNode`), every
buffer and every entry state, with `start` the entry cursor and `end` the cursor after
the body, when `IgnoreRange` is unset as the body returns (so clipping changes
nothing): if the body accepts, `Root` gains exactly one new last child whose `Name` is
the rule name, whose `Range` is `[start,end)` and whose `Children` are the children
`Cleanup(start,end)` detached, after the children `Cleanup` left; if the body fails, no
node is appended and `Root` is as `Root.Discard(start)` leaves it. -/
theorem AddNode_builds_node (data : Fragment) (defName : String) (s s1 : State)
    (hbody : data { s with accept := true } = some s1)
    (hign : s1.IgnoreRange = ⟨0, 0⟩) :
    ∃ s', AddNode data defName s = some s' ∧ s'.accept = s1.accept ∧ s'.Pos = s1.Pos ∧
      (s1.accept = true →
        s'.Root.Children = (s1.Root.Cleanup s.Pos s1.Pos).2.Children ++
          [⟨⟨s.Pos, s1.Pos⟩, defName, (s1.Root.Cleanup s.Pos s1.Pos).1.Children⟩]) ∧
      (s1.accept = false → s'.Root = s1.Root.Discard s.Pos) := by
  have hclip : ∀ r : Region, r.Clip ⟨0, 0⟩ = r := by
    intro r
    simp only [Region.Clip]
    have h1 : ¬ ((0 : Int) ≤ r.A ∧ r.A < 0) := by omega
    have h2 : ¬ ((0 : Int) < r.B ∧ r.B ≤ 0) := by omega
    simp only [h1, h2, if_false]
  have hrange : (s1.Root.Cleanup s.Pos s1.Pos).1.Range = ⟨s.Pos, s1.Pos⟩ := rfl
  unfold AddNode
  simp only [hbody, hign]
  by_cases hacc : s1.accept = true
  · simp only [hacc, if_true, hclip, hrange]
    split
    · exact ⟨_, rfl, rfl, rfl, fun _ => rfl, fun h => by simp at h⟩
    · exact ⟨_, rfl, rfl, rfl, fun _ => rfl, fun h => by simp at h⟩
  · have hf : s1.accept = false := by simpa using hacc
    simp only [hf, Bool.false_eq_true, if_false]
    split
    · exact ⟨_, rfl, rfl, rfl, fun h => by simp at h, fun _ => rfl⟩
    · exact ⟨_, rfl, rfl, rfl, fun h => by simp at h, fun _ => rfl⟩

/-- C9 at the rule `Digits <- [0-9]+` on the buffer `123abc` from 0: the body accepts
with the cursor at 3, and the run of the rule appends to the empty root one node named
`Digits` with range `[0,3)` and no children. -/
theorem AddNode_builds_node_witness :
    (∃ s', AddNode (exec digitsGrammar 4 (.OneOrMore (.CharRange [48] [57]))) "Digits"
        (entryState [49, 50, 51, 97, 98, 99] 0) = some s' ∧
      s'.accept = true ∧ s'.Pos = 3 ∧
      (true = true → s'.Root.Children = [] ++ [⟨⟨0, 3⟩, "Digits", []⟩]) ∧
      (true = false → s'.Root = emptyRoot)) ∧
    (exec digitsGrammar 5 (.RuleReference "Digits")
        (entryState [49, 50, 51, 97, 98, 99] 0)).map
      (fun s' => (s'.accept, s'.Pos, s'.Root.Children))
      = some (true, 3, [⟨⟨0, 3⟩, "Digits", []⟩]) :=
  ⟨AddNode_builds_node (exec digitsGrammar 4 (.OneOrMore (.CharRange [48] [57]))) "Digits"
      (entryState [49, 50, 51, 97, 98, 99] 0)
      ⟨true, 3, [49, 50, 51, 97, 98, 99], ⟨0, 0⟩, emptyRoot, 0⟩ (by decide!) rfl,
   by decide!⟩

/-- C10: for every node `n` with any list of children and every integer `pos`: after
`n.Discard(pos)` the node keeps its `Range` and `Name`, and `n.Children` is the longest
initial part of the original children whose last element `c` has
`c.Range.End() <= pos`: it is an initial part of the original list (so the retained
children are unchanged and in their original order), its last element, if any, ends at
or before `pos`, no initial part with such a last element is longer, and it is empty
when no original child has `End() <= pos`. -/
theorem Discard_keeps_longest_initial_part (n : Node) (pos : Int) :
    (n.Discard pos).Range = n.Range ∧ (n.Discard pos).Name = n.Name ∧
    (n.Discard pos).Children <+: n.Children ∧
    (∀ c, (n.Discard pos).Children.getLast? = some c → c.Range.End ≤ pos) ∧
    (∀ q : List Node, q <+: n.Children → (∃ c, q.getLast? = some c ∧ c.Range.End ≤ pos) →
      q.length ≤ (n.Discard pos).Children.length) ∧
    ((∀ c ∈ n.Children, ¬ c.Range.End ≤ pos) → (n.Discard pos).Children = []) := by
  have hR : (n.Discard pos).Range = n.Range := by unfold Node.Discard; simp only; split <;> rfl
  have hN : (n.Discard pos).Name = n.Name := by unfold Node.Discard; simp only; split <;> rfl
  refine ⟨hR, hN, ?_⟩
  rw [Discard_children]
  set cs := n.Children with hcs
  set r := discardScan cs pos cs.length with hr
  have hrle : r ≤ cs.length := discardScan_le cs pos cs.length
  refine ⟨List.take_prefix _ _, ?_, ?_, ?_⟩
  · intro c hc
    by_cases h0 : r = 0
    · rw [h0] at hc; simp at hc
    · obtain ⟨c', hget, hle⟩ := discardScan_hit cs pos cs.length (by omega)
      rw [← hr] at hget
      have : (cs.take r).getLast? = cs[r - 1]? := by
        rw [List.getLast?_eq_getElem?]
        simp only [List.length_take, min_eq_left hrle]
        rw [List.getElem?_take_of_lt (by omega)]
      rw [this, hget] at hc
      cases hc
      exact hle
  · rintro q hq ⟨c, hlast, hle⟩
    simp only [List.length_take, min_eq_left hrle]
    by_contra hlt
    push_neg at hlt
    have hqlen : q.length ≤ cs.length := hq.length_le
    have hq0 : 0 < q.length := by omega
    obtain ⟨c', hget, hnot⟩ := discardScan_miss cs pos cs.length le_rfl (q.length - 1)
      (by omega) (by omega)
    have hqe : q = cs.take q.length := (List.prefix_iff_eq_take.mp hq)
    have : q.getLast? = cs[q.length - 1]? := by
      conv_lhs => rw [hqe]
      rw [List.getLast?_eq_getElem?]
      simp only [List.length_take, min_eq_left hqlen]
      rw [List.getElem?_take_of_lt (by omega)]
    rw [this, hget] at hlast
    cases hlast
    exact hnot hle
  · intro hall
    by_cases h0 : r = 0
    · rw [h0]; rfl
    · obtain ⟨c', hget, hle⟩ := discardScan_hit cs pos cs.length (by omega)
      exact absurd hle (hall c' (List.getElem?_mem hget))

/-! ## Lemmas on the parse tree and the error report -/

theorem cleanupScan_fst (cs : List Node) (pos end_ : Int) (k popEnd : Nat) :
    (cleanupScan cs pos end_ k popEnd).1 = discardScan cs pos k := by
  induction k generalizing popEnd with
  | zero => simp [cleanupScan, discardScan]
  | succ i ih =>
    simp only [cleanupScan, discardScan, List.get?_eq_getElem?]
    cases hnode : cs[i]? with
    | none => rfl
    | some node =>
      simp only
      by_cases hle : node.Range.End ≤ pos
      · simp only [hle, if_true]
      · simp only [hle, if_false]
        exact ih _

theorem cleanupScan_bounds (cs : List Node) (pos end_ : Int) (k popEnd : Nat) (h : k ≤ popEnd) :
    (cleanupScan cs pos end_ k popEnd).1 ≤ (cleanupScan cs pos end_ k popEnd).2 ∧
    (cleanupScan cs pos end_ k popEnd).2 ≤ popEnd := by
  induction k generalizing popEnd with
  | zero => simp [cleanupScan]
  | succ i ih =>
    simp only [cleanupScan, List.get?_eq_getElem?]
    cases hnode : cs[i]? with
    | none => simp
    | some node =>
      simp only
      by_cases hle : node.Range.End ≤ pos
      · simp only [hle, if_true]; exact ⟨h, le_rfl⟩
      · simp only [hle, if_false]
        by_cases hb : node.Range.Begin > end_
        · simp only [hb, if_true]
          have := ih (i + 1) (by omega)
          exact ⟨this.1, by omega⟩
        · simp only [hb, if_false]
          have := ih popEnd (by omega)
          exact ⟨this.1, this.2⟩

theorem Cleanup_snd (n : Node) (pos end_ : Int) :
    (n.Cleanup pos end_).2 = n.Discard (if pos = 0 then -1 else pos) := by
  simp only [Node.Cleanup, Node.Discard, cleanupScan_fst]

theorem Cleanup_fst_children (n : Node) (pos end_ : Int) :
    (n.Cleanup pos end_).1.Children =
      (n.Children.take (cleanupScan n.Children (if pos = 0 then -1 else pos)
          (if end_ = 0 then -1 else end_) n.Children.length n.Children.length).2).drop
        (discardScan n.Children (if pos = 0 then -1 else pos) n.Children.length) := by
  simp only [Node.Cleanup, cleanupScan_fst]
  generalize (cleanupScan n.Children (if pos = 0 then -1 else pos)
          (if end_ = 0 then -1 else end_) n.Children.length n.Children.length).2 = pe
  by_cases h : pe = 0
  · subst h; simp
  · simp [h]

theorem Discard_sorted_end_le (n : Node) (pos : Int)
    (hsorted : n.Children.Pairwise (fun a b => a.Range.End ≤ b.Range.End)) :
    ∀ c ∈ (n.Discard pos).Children, c.Range.End ≤ pos := by
  intro c hc
  rw [Discard_children] at hc
  obtain ⟨j, hj, rfl⟩ := List.mem_take_iff_getElem.mp hc
  have hj1 : j < discardScan n.Children pos n.Children.length := lt_of_lt_of_le hj (min_le_left _ _)
  have hj2 : j < n.Children.length := lt_of_lt_of_le hj (min_le_right _ _)
  obtain ⟨c', hget, hle⟩ := discardScan_hit n.Children pos n.Children.length (by omega)
  have hk : discardScan n.Children pos n.Children.length - 1 < n.Children.length := by
    have := discardScan_le n.Children pos n.Children.length
    omega
  have hc' : c' = n.Children[discardScan n.Children pos n.Children.length - 1] := by
    rw [List.getElem?_eq_getElem hk] at hget
    exact (Option.some.inj hget).symm
  by_cases hjk : j = discardScan n.Children pos n.Children.length - 1
  · subst hc'; simp only [hjk]; exact hle
  · have := List.pairwise_iff_getElem.mp hsorted j
      (discardScan n.Children pos n.Children.length - 1) hj2 hk (by omega)
    rw [← hc'] at this
    exact le_trans this hle

theorem Simplify_mk (r : Region) (nm : String) (cs : List Node) :
    (Node.mk r nm cs).Simplify =
      match simplifyChildren cs with
      | [c] => if c.Range = r then c else ⟨r, nm, [c]⟩
      | cs' => ⟨r, nm, cs'⟩ := by
  rw [Node.Simplify]

mutual
theorem Simplify_fixed : ∀ n : Node, n.Simplify.Simplify = n.Simplify
  | ⟨r, nm, cs⟩ => by
    have ih := simplifyChildren_fixed cs
    rw [Simplify_mk]
    split
    · rename_i c hc
      rw [hc] at ih
      simp only [simplifyChildren, List.cons.injEq, and_true] at ih
      by_cases hr : c.Range = r
      · simp only [hr, if_true]; exact ih
      · simp only [hr, if_false]
        rw [Simplify_mk]
        simp only [simplifyChildren, ih, hr, if_false]
    · rename_i cs' hne
      rw [Simplify_mk]
      rw [ih]
      split
      · rename_i c hc
        exact absurd hc (hne c)
      · rfl
theorem simplifyChildren_fixed : ∀ cs : List Node,
    simplifyChildren (simplifyChildren cs) = simplifyChildren cs
  | [] => by simp [simplifyChildren]
  | c :: cs => by
    simp only [simplifyChildren]
    rw [Simplify_fixed c, simplifyChildren_fixed cs]
end

theorem UpdateRange_mk (r : Region) (nm : String) (cs : List Node) :
    (Node.mk r nm cs).UpdateRange =
      ((updateChildren r cs).1, ⟨(updateChildren r cs).1, nm, (updateChildren r cs).2⟩) := by
  rw [Node.UpdateRange]

theorem UpdateRange_fst (n : Node) : n.UpdateRange.1 = n.UpdateRange.2.Range := by
  cases n with
  | mk r nm cs => rw [UpdateRange_mk]

theorem updateChildren_cons (r : Region) (c : Node) (cs : List Node) :
    updateChildren r (c :: cs) =
      ((updateChildren (widen r c.UpdateRange.1) cs).1,
        c.UpdateRange.2 :: (updateChildren (widen r c.UpdateRange.1) cs).2) := by
  rw [updateChildren]
  rfl

theorem widen_A (r curr : Region) : (widen r curr).A = min r.A curr.Begin := by
  simp only [widen]
  by_cases h1 : curr.Begin < r.A
  · simp only [h1, if_true]
    split <;> simp [min_eq_right (le_of_lt h1)]
  · simp only [h1, if_false]
    split <;> simp [min_eq_left (not_lt.mp h1)]

theorem widen_B (r curr : Region) : (widen r curr).B = max r.B curr.End := by
  simp only [widen]
  by_cases h1 : curr.Begin < r.A
  · simp only [h1, if_true]
    by_cases h2 : curr.End > r.B
    · simp [h2, max_eq_right (le_of_lt h2)]
    · simp [h2, max_eq_left (not_lt.mp h2)]
  · simp only [h1, if_false]
    by_cases h2 : curr.End > r.B
    · simp [h2, max_eq_right (le_of_lt h2)]
    · simp [h2, max_eq_left (not_lt.mp h2)]

theorem updateChildren_snd (r : Region) (cs : List Node) :
    (updateChildren r cs).2 = cs.map (fun c => c.UpdateRange.2) := by
  induction cs generalizing r with
  | nil => simp [updateChildren]
  | cons c cs ih => rw [updateChildren_cons]; simp [ih]

theorem updateChildren_A (r : Region) (cs : List Node) :
    (updateChildren r cs).1.A =
      ((cs.map (fun c => c.UpdateRange.2)).map (fun c => c.Range.Begin)).foldl min r.A := by
  induction cs generalizing r with
  | nil => simp [updateChildren]
  | cons c cs ih =>
    rw [updateChildren_cons]
    simp only [ih, List.map_cons, List.foldl_cons, widen_A, UpdateRange_fst]

theorem updateChildren_B (r : Region) (cs : List Node) :
    (updateChildren r cs).1.B =
      ((cs.map (fun c => c.UpdateRange.2)).map (fun c => c.Range.End)).foldl max r.B := by
  induction cs generalizing r with
  | nil => simp [updateChildren]
  | cons c cs ih =>
    rw [updateChildren_cons]
    simp only [ih, List.map_cons, List.foldl_cons, widen_B, UpdateRange_fst]

theorem updateChildren_widens (r : Region) (cs : List Node) :
    (updateChildren r cs).1.A ≤ r.A ∧ r.B ≤ (updateChildren r cs).1.B := by
  induction cs generalizing r with
  | nil => simp [updateChildren]
  | cons c cs ih =>
    rw [updateChildren_cons]
    have h := ih (widen r c.UpdateRange.1)
    have hA := widen_A r c.UpdateRange.1
    have hB := widen_B r c.UpdateRange.1
    constructor
    · calc (updateChildren (widen r c.UpdateRange.1) cs).1.A ≤ (widen r c.UpdateRange.1).A := h.1
        _ ≤ r.A := by rw [hA]; exact min_le_left _ _
    · calc r.B ≤ (widen r c.UpdateRange.1).B := by rw [hB]; exact le_max_left _ _
        _ ≤ _ := h.2

theorem updateChildren_contains (r : Region) (cs : List Node) :
    ∀ c ∈ (updateChildren r cs).2,
      (updateChildren r cs).1.A ≤ c.Range.Begin ∧ c.Range.End ≤ (updateChildren r cs).1.B := by
  induction cs generalizing r with
  | nil => simp [updateChildren]
  | cons c cs ih =>
    rw [updateChildren_cons]
    intro x hx
    simp only [List.mem_cons] at hx
    have hw := updateChildren_widens (widen r c.UpdateRange.1) cs
    rcases hx with rfl | hx
    · have hA := widen_A r c.UpdateRange.1
      have hB := widen_B r c.UpdateRange.1
      constructor
      · calc _ ≤ (widen r c.UpdateRange.1).A := hw.1
          _ ≤ _ := by rw [hA, UpdateRange_fst]; exact min_le_right _ _
      · calc _ ≤ (widen r c.UpdateRange.1).B := by
              rw [hB, UpdateRange_fst]; exact le_max_right _ _
          _ ≤ _ := hw.2
    · exact ih _ x hx

mutual
theorem UpdateRange_subnodes : ∀ n : Node, ∀ m ∈ n.UpdateRange.2.subnodes, m.ContainsChildren
  | ⟨r, nm, cs⟩ => by
    intro m hm
    rw [UpdateRange_mk] at hm
    simp only [Node.subnodes, List.mem_cons] at hm
    rcases hm with rfl | hm
    · exact updateChildren_contains r cs
    · rw [updateChildren_snd] at hm
      exact updateList_subnodes cs m hm
theorem updateList_subnodes : ∀ cs : List Node,
    ∀ m ∈ subnodesList (cs.map (fun c => c.UpdateRange.2)), m.ContainsChildren
  | [] => by simp [subnodesList]
  | c :: cs => by
    intro m hm
    simp only [List.map_cons, subnodesList, List.mem_append] at hm
    rcases hm with hm | hm
    · exact UpdateRange_subnodes c m hm
    · exact updateList_subnodes cs m hm
end

theorem takeWhile_snoc_newline (l : List Nat) :
    (l ++ [10]).takeWhile (fun b => decide (b ≠ 10)) = l.takeWhile (fun b => decide (b ≠ 10)) := by
  rw [List.takeWhile_append]
  split
  · rename_i hlen
    have hall : l.takeWhile (fun b => decide (b ≠ 10)) = l :=
      (List.takeWhile_prefix _).eq_of_length hlen
    have h10 : ([10] : List Nat).takeWhile (fun b => decide (b ≠ 10)) = [] := by decide
    rw [h10, List.append_nil, hall]
  · rfl

theorem takeWhile_snoc_after_newline (l : List Nat) (r : Nat) (h : 10 ∈ l) :
    (l ++ [r]).takeWhile (fun b => decide (b ≠ 10)) = l.takeWhile (fun b => decide (b ≠ 10)) := by
  rw [List.takeWhile_append]
  split
  · rename_i hlen
    have hall : l.takeWhile (fun b => decide (b ≠ 10)) = l :=
      (List.takeWhile_prefix _).eq_of_length hlen
    have := (List.takeWhile_eq_self_iff.mp hall) 10 h
    simp at this
  · rfl

theorem takeWhile_no_newline (l : List Nat) (h : 10 ∉ l) :
    l.takeWhile (fun b => decide (b ≠ 10)) = l := by
  rw [List.takeWhile_eq_self_iff]
  intro a ha
  simp only [ne_eq, decide_not, Bool.not_eq_true', decide_eq_false_iff_not]
  intro h10; exact h (h10 ▸ ha)

theorem errorScan_spec (xs : List Nat) (lc : Nat × Nat) :
    errorScan xs lc = (lc.1 + xs.count 10,
      (if 10 ∈ xs then 1 else lc.2) +
        (xs.reverse.takeWhile (fun b => decide (b ≠ 10))).length) := by
  induction xs generalizing lc with
  | nil => simp [errorScan]
  | cons r rest ih =>
    simp only [errorScan]
    by_cases hr : r = 10
    · subst hr
      rw [if_pos rfl, ih]
      have hmem : (10 : Nat) ∈ 10 :: rest := List.mem_cons_self _ _
      rw [if_pos hmem, List.reverse_cons, takeWhile_snoc_newline, List.count_cons_self]
      by_cases hin : 10 ∈ rest
      · rw [if_pos hin]
        refine Prod.ext ?_ rfl
        show lc.1 + 1 + List.count 10 rest = lc.1 + (List.count 10 rest + 1)
        omega
      · rw [if_neg hin, takeWhile_no_newline _ (fun h => hin (List.mem_reverse.mp h))]
        refine Prod.ext ?_ ?_
        · show lc.1 + 1 + List.count 10 rest = lc.1 + (List.count 10 rest + 1)
          omega
        · show 1 + rest.reverse.length = 1 + rest.reverse.length
          rfl
    · rw [if_neg hr, ih]
      have hcount : List.count 10 (r :: rest) = List.count 10 rest :=
        List.count_cons_of_ne (Ne.symm hr) rest
      rw [hcount, List.reverse_cons]
      by_cases hin : 10 ∈ rest
      · have hmem : (10 : Nat) ∈ r :: rest := List.mem_cons_of_mem _ hin
        rw [if_pos hin, if_pos hmem,
          takeWhile_snoc_after_newline _ r (List.mem_reverse.mpr hin)]
      · have hmem : (10 : Nat) ∉ r :: rest := by
          intro h
          rcases List.mem_cons.mp h with h | h
          · exact hr h.symm
          · exact hin h
        have hno : (10 : Nat) ∉ rest.reverse ++ [r] := by
          intro h
          rcases List.mem_append.mp h with h | h
          · exact hin (List.mem_reverse.mp h)
          · exact hr (List.mem_singleton.mp h).symm
        rw [if_neg hin, if_neg hmem, takeWhile_no_newline _ hno,
          takeWhile_no_newline _ (fun h => hin (List.mem_reverse.mp h))]
        refine Prod.ext rfl ?_
        show lc.2 + 1 + rest.reverse.length = lc.2 + (rest.reverse ++ [r]).length
        rw [List.length_append, List.length_singleton]
        omega

theorem unexpected_ne_EOF (c : Char) : "Unexpected " ++ String.singleton c ≠ "Unexpected EOF" := by
  intro h
  have := congrArg String.length h
  rw [String.length_append, String.length_singleton] at this
  revert this
  decide

theorem message_ne_EOF (r : Nat) :
    (if r = 13 ∨ r = 10 then "Unexpected new line"
      else "Unexpected " ++ String.singleton (Char.ofNat r)) ≠ "Unexpected EOF" := by
  split
  · decide
  · exact unexpected_ne_EOF _

/-! ## The claims on the parse tree -/

/-- C11 as stated fails: the children `[0,10)`, `[1,2)` in this order and `pos = 5`: the
loop stops at the last child, whose end 2 is at most 5, nothing is cut, and the child
`[0,10)` remains although its end is after 5. -/
theorem Discard_keeps_early_long_child :
    ((parentOf [leaf 0 10 "a", leaf 1 2 "b"]).Discard 5).Children
      = [leaf 0 10 "a", leaf 1 2 "b"] ∧
    ¬ ∀ c ∈ ((parentOf [leaf 0 10 "a", leaf 1 2 "b"]).Discard 5).Children,
      c.Range.End ≤ 5 := by
  decide!

/-- C11, amended: for every node `n` whose children's `End()` values are non-decreasing
along the list, and every integer `pos`: after `n.Discard(pos)` every remaining child
`c` satisfies `c.Range.End() <= pos`. -/
theorem Discard_remaining_end_le (n : Node) (pos : Int)
    (hsorted : n.Children.Pairwise (fun a b => a.Range.End ≤ b.Range.End)) :
    ∀ c ∈ (n.Discard pos).Children, c.Range.End ≤ pos :=
  Discard_sorted_end_le n pos hsorted

/-- C11, amended, at the children `[0,2)`, `[2,5)`, `[5,9)` and `pos = 5`: the first two
remain. -/
theorem Discard_remaining_end_le_witness :
    ((parentOf [leaf 0 2 "a", leaf 2 5 "b", leaf 5 9 "c"]).Discard 5).Children
      = [leaf 0 2 "a", leaf 2 5 "b"] ∧
    ∀ c ∈ ((parentOf [leaf 0 2 "a", leaf 2 5 "b", leaf 5 9 "c"]).Discard 5).Children,
      c.Range.End ≤ 5 :=
  ⟨by decide!,
   Discard_remaining_end_le (parentOf [leaf 0 2 "a", leaf 2 5 "b", leaf 5 9 "c"]) 5
     (by decide!)⟩

/-- C14: for every node `n` with children `cs` and all integers `pos` and `end`: after
`r := n.Cleanup(pos, end)` there is a list `d` of discarded children such that
`cs = n.Children ++ r.Children ++ d`: the kept, detached and discarded groups are three
consecutive segments of the original list. -/
theorem Cleanup_partition (n : Node) (pos end_ : Int) :
    ∃ d, n.Children = (n.Cleanup pos end_).2.Children ++ (n.Cleanup pos end_).1.Children ++ d := by
  rw [Cleanup_snd, Discard_children, Cleanup_fst_children]
  set cs := n.Children with hcs
  set pos1 : Int := if pos = 0 then -1 else pos with hpos1
  set end1 : Int := if end_ = 0 then -1 else end_ with hend1
  have hfst := cleanupScan_fst cs pos1 end1 cs.length cs.length
  have hb := cleanupScan_bounds cs pos1 end1 cs.length cs.length le_rfl
  set pe := (cleanupScan cs pos1 end1 cs.length cs.length).2 with hpe
  set pi := discardScan cs pos1 cs.length with hpi
  rw [hfst] at hb
  refine ⟨cs.drop pe, ?_⟩
  have h1 : cs.take pi = (cs.take pe).take pi := by
    rw [List.take_take, min_eq_left hb.1]
  rw [h1, List.take_append_drop, List.take_append_drop]

/-- C15: for every finite node tree `t`, applying `Simplify` twice gives the same tree
as applying it once, comparing `Range`, `Name` and `Children` recursively. -/
theorem Simplify_idempotent (t : Node) : t.Simplify.Simplify = t.Simplify :=
  Simplify_fixed t

/-- C16: for every finite node tree, with any initial ranges: the value `UpdateRange`
returns on the root is the root's resulting `Range`, and afterwards every node `m` of
the tree and every child `c` of `m` satisfy `m.Range.A <= c.Range.Begin()` and
`c.Range.End() <= m.Range.B`. -/
theorem UpdateRange_contains_children (t : Node) :
    t.UpdateRange.1 = t.UpdateRange.2.Range ∧
    ∀ m ∈ t.UpdateRange.2.subnodes, ∀ c ∈ m.Children,
      m.Range.A ≤ c.Range.Begin ∧ c.Range.End ≤ m.Range.B :=
  ⟨UpdateRange_fst t, fun m hm => UpdateRange_subnodes t m hm⟩

/-- C17 as stated fails: a node with range `[0,100)` and the one child `[5,6)` keeps
the range `[0,100)` after `UpdateRange`, while the union of its children's ranges is
`[5,6)`: the loop only lowers `Range.A` and raises `Range.B`. -/
theorem UpdateRange_keeps_wider_range :
    ((Node.mk ⟨0, 100⟩ "p" [leaf 5 6 "c"]).UpdateRange).2
      = Node.mk ⟨0, 100⟩ "p" [leaf 5 6 "c"] := by
  decide!

/-- C17, amended: for every node (with at least one child or none): after
`UpdateRange` its children are the updated children, and its `Range` is the union of
its `Range` before the call and its children's updated ranges: `Range.A` is the minimum
of the old `Range.A` and the children's `Begin()`, `Range.B` is the maximum of the old
`Range.B` and the children's `End()`. -/
theorem UpdateRange_widens_to_children (n : Node) :
    n.UpdateRange.2.Children = n.Children.map (fun c => c.UpdateRange.2) ∧
    n.UpdateRange.2.Range.A
      = (n.UpdateRange.2.Children.map (fun c => c.Range.Begin)).foldl min n.Range.A ∧
    n.UpdateRange.2.Range.B
      = (n.UpdateRange.2.Children.map (fun c => c.Range.End)).foldl max n.Range.B := by
  cases n with
  | mk r nm cs =>
    rw [UpdateRange_mk]
    simp only [updateChildren_snd, updateChildren_A, updateChildren_B, and_self]

/-! ## The claims on the skip rule, the furthest failure and the error report -/

/-- C18 as stated fails.  On the buffer `ab  cd    ef` entered at 2 with `IgnoreRange`
`[6,10)`, the skip rule `' '+` accepts at 4 and leaves `IgnoreRange = [2,4)`: the end is
the cursor 4, not `max(10, 4)`.  Entered at 2 with `IgnoreRange` `[0,1)`, it leaves
`[2,4)`: a start of 0 counts as unset, so the start is 2, not `min(0, 2)`. -/
theorem Ignore_sets_End_to_Pos :
    (Ignore spacesBody
        ⟨false, 2, [97, 98, 32, 32, 99, 100, 32, 32, 32, 32, 101, 102], ⟨6, 10⟩, emptyRoot, 0⟩).map
      (fun s' => (s'.accept, s'.Pos, s'.IgnoreRange)) = some (true, 4, ⟨2, 4⟩) ∧
    (Ignore spacesBody
        ⟨false, 2, [97, 98, 32, 32, 99, 100, 32, 32, 32, 32, 101, 102], ⟨0, 1⟩, emptyRoot, 0⟩).map
      (fun s' => (s'.accept, s'.Pos, s'.IgnoreRange)) = some (true, 4, ⟨2, 4⟩) := by
  decide!

/-- C18, amended: for every ignore-wrapped rule, every body and every entry state with
entry cursor `start`, with `[s,e)` the `IgnoreRange` as the body returns (the entry
value when the body does not touch it): if the body accepts with `Pos != start`, then
afterwards `IgnoreRange.End = Pos`, and `IgnoreRange.Start` is `start` when
`start < s` or `s = 0` and `s` otherwise; so `Start = min(s, start)` when `s` is not 0,
and `End = max(e, Pos)` when `e <= Pos`.  If the body fails or consumes nothing, the
state, `IgnoreRange` included, is as the body left it. -/
theorem Ignore_IgnoreRange (data : Fragment) (s s1 : State)
    (hbody : data { s with accept := true } = some s1) :
    ∃ s', Ignore data s = some s' ∧
      (s1.accept = true → s.Pos ≠ s1.Pos →
        s'.IgnoreRange.End = s1.Pos ∧
        s'.IgnoreRange.Start =
          (if s.Pos < s1.IgnoreRange.Start ∨ s1.IgnoreRange.Start = 0 then s.Pos
           else s1.IgnoreRange.Start) ∧
        (s1.IgnoreRange.Start ≠ 0 → s'.IgnoreRange.Start = min s1.IgnoreRange.Start s.Pos) ∧
        (s1.IgnoreRange.End ≤ s1.Pos → s'.IgnoreRange.End = max s1.IgnoreRange.End s1.Pos)) ∧
      (s1.accept = false ∨ s.Pos = s1.Pos → s' = s1) := by
  unfold Ignore
  simp only [hbody]
  split
  · rename_i hc
    refine ⟨_, rfl, ?_, ?_⟩
    · intro _ _
      split
      · rename_i hlt
        refine ⟨rfl, rfl, ?_, ?_⟩
        · intro h0
          have : s.Pos < s1.IgnoreRange.Start := by
            rcases hlt with h | h
            · exact h
            · exact absurd h h0
          exact (min_eq_right (le_of_lt this)).symm
        · intro he; exact (max_eq_right he).symm
      · rename_i hlt
        refine ⟨rfl, rfl, ?_, ?_⟩
        · intro _
          have : s1.IgnoreRange.Start ≤ s.Pos := by
            by_contra hgt
            exact hlt (Or.inl (not_le.mp hgt))
          exact (min_eq_left this).symm
        · intro he; exact (max_eq_right he).symm
    · rintro (hf | hp)
      · rw [hc.1] at hf; exact absurd hf (by simp)
      · exact absurd hp hc.2
  · rename_i hc
    refine ⟨s1, rfl, ?_, fun _ => rfl⟩
    intro h1 h2
    exact absurd ⟨h1, h2⟩ hc

/-- C18, amended, at the skip rule `' '+` on the buffer `ab  cd` entered at 2 with
`IgnoreRange` `[1,2)`: the body accepts at 4 and `IgnoreRange` becomes `[1,4)`. -/
theorem Ignore_IgnoreRange_witness :
    ∃ s', Ignore spacesBody ⟨false, 2, [97, 98, 32, 32, 99, 100], ⟨1, 2⟩, emptyRoot, 0⟩
        = some s' ∧
      (true = true → (2 : Int) ≠ 4 →
        s'.IgnoreRange.End = 4 ∧
        s'.IgnoreRange.Start = (if (2 : Int) < 1 ∨ (1 : Int) = 0 then 2 else 1) ∧
        ((1 : Int) ≠ 0 → s'.IgnoreRange.Start = min 1 2) ∧
        ((2 : Int) ≤ 4 → s'.IgnoreRange.End = max 2 4)) ∧
      (true = false ∨ (2 : Int) = 4 →
        s' = ⟨true, 4, [97, 98, 32, 32, 99, 100], ⟨1, 2⟩, emptyRoot, 0⟩) :=
  Ignore_IgnoreRange spacesBody ⟨false, 2, [97, 98, 32, 32, 99, 100], ⟨1, 2⟩, emptyRoot, 0⟩
    ⟨true, 4, [97, 98, 32, 32, 99, 100], ⟨1, 2⟩, emptyRoot, 0⟩ (by decide!)

/-- C19 as stated fails: the run of `A <- "ab" / "ac"` on the buffer `ax` from 0 with
`LastError = 0` does not end with `LastError = 1`. -/
theorem choice_LastError_not_one :
    (exec choiceGrammar 3 (.RuleReference "A") (entryState [97, 120] 0)).map
      (fun s' => s'.LastError) ≠ some 1 := by
  decide!

/-- C19, amended: for the rule `A <- "ab" / "ac"` compiled with the default protocol
and run on the buffer `ax` from `Pos = 0` with `LastError = 0`: both alternatives fail,
the rule reports `accept = false`, `Pos` is restored to 0, and `LastError` is 0 after
the run: a literal is matched as a whole and leaves the cursor at 0 on failure, and
only the all-required group records the cursor in `LastError`.  The same holds when
each alternative is compiled as a sequence of one literal. -/
theorem choice_LastError_zero :
    (exec choiceGrammar 3 (.RuleReference "A") (entryState [97, 120] 0)).map
      (fun s' => (s'.accept, s'.Pos, s'.LastError)) = some (false, 0, 0) ∧
    (exec choiceOfSequencesGrammar 4 (.RuleReference "A") (entryState [97, 120] 0)).map
      (fun s' => (s'.accept, s'.Pos, s'.LastError)) = some (false, 0, 0) := by
  decide!

/-- C20: for every buffer and every `LastError` with `0 <= LastError <= len(buffer)`,
the generated `Error()` reports `line` = 1 + the number of newline bytes in
`buffer[0:LastError]`, `column` = 1 + the number of bytes of `buffer[0:LastError]` that
follow its last newline (all of them when it has none), and its message is
`Unexpected EOF` exactly when `LastError = len(buffer)`; whatever rune the reader
returns. -/
theorem Error_line_column_message (readRune : List Nat → Nat) (s : State)
    (h0 : 0 ≤ s.LastError) (h1 : s.LastError ≤ len s) :
    ∃ msg, Error readRune s = some
        (1 + (s.Data.take s.LastError.toNat).count 10,
         1 + ((s.Data.take s.LastError.toNat).reverse.takeWhile
            (fun b => decide (b ≠ 10))).length,
         msg) ∧
      (msg = "Unexpected EOF" ↔ s.LastError = len s) := by
  unfold Error
  simp only [h0, h1, and_self, if_true, errorScan_spec]
  have hcol : (if 10 ∈ s.Data.take s.LastError.toNat then 1 else 1) = 1 := by split <;> rfl
  rw [hcol]
  refine ⟨_, rfl, ?_⟩
  by_cases he : s.LastError = len s
  · simp only [he, if_true]
  · simp only [he, if_false, iff_false]
    exact message_ne_EOF _

/-- C20 at the buffer `ab`, newline, `cd` with `LastError = 4`: line 2, column 2, and
the message names the byte `d`. -/
theorem Error_line_column_message_witness :
    Error firstByte ⟨false, 0, [97, 98, 10, 99, 100], ⟨0, 0⟩, emptyRoot, 4⟩
      = some (2, 2, "Unexpected d") ∧
    ∃ msg, Error firstByte ⟨false, 0, [97, 98, 10, 99, 100], ⟨0, 0⟩, emptyRoot, 4⟩ = some
        (1 + (([97, 98, 10, 99, 100] : List Nat).take (4 : Int).toNat).count 10,
         1 + ((([97, 98, 10, 99, 100] : List Nat).take (4 : Int).toNat).reverse.takeWhile
            (fun b => decide (b ≠ 10))).length,
         msg) ∧
      (msg = "Unexpected EOF" ↔
        (4 : Int) = len ⟨false, 0, [97, 98, 10, 99, 100], ⟨0, 0⟩, emptyRoot, 4⟩) :=
  ⟨by decide!,
   Error_line_column_message firstByte
     ⟨false, 0, [97, 98, 10, 99, 100], ⟨0, 0⟩, emptyRoot, 4⟩ (by decide) (by decide)⟩

/-! ## Lemmas on the cursor bounds and the loops -/

end Parser
